import Mathlib

/-!
Verification of the caching / retry / rate-limiting core of the
`ganja_paraiso_bot` repository, shallowly embedded in Lean 4.

The embedding follows `utils/cache.py` (`EnhancedCache`),
`utils/retryable.py` (`RetryableOperation`), and the cache / retry /
rate-limit logic of `apis/google_api_manager.py` (`GoogleAPIsManager`).
Floating-point times, delays and TTLs are modelled as rationals; Python
dictionaries as association lists with unique keys; the `deque(maxlen=...)`
recency structure as a list that drops from the left on overflow, exactly
as `collections.deque` does.  Randomness (`random.uniform`) is modelled by
an explicit stream of draws, constrained by hypotheses where a claim
requires the documented bounds.
-/

set_option linter.unusedSectionVars false

/-- Python's `a or b` for an optional float `a` (as in `ttl or self.default_ttl`):
`None` and `0` are falsy and select `b`. -/
def pyOrQ (a : Option ℚ) (b : ℚ) : ℚ :=
  match a with
  | some x => if x = 0 then b else x
  | none => b

/-- A cache entry as written by `EnhancedCache.set`:
`{"data": value, "timestamp": time.time(), "ttl": ttl or self.default_ttl}`.
The `timestamp` and `ttl` fields are `Option` so that `entry.get("timestamp", 0)`
and `entry.get("ttl", default_ttl or self.default_ttl)` in `get` can be modelled
faithfully with `Option.getD`. -/
structure Entry (V : Type) where
  data : V
  timestamp : Option ℚ
  ttl : Option ℚ
deriving DecidableEq, Repr

/-- Keys of a Python-dict association list. -/
def dictKeys {K B : Type} (c : List (K × B)) : List K :=
  c.map Prod.fst

/-- Dictionary lookup (`d[key]` / `key in d`): Python dicts have unique
keys, which the insert below maintains, so first-match lookup is exact. -/
def lookupEntry {K B : Type} [DecidableEq K] :
    List (K × B) → K → Option B
  | [], _ => none
  | (k', e) :: rest, k => if k = k' then some e else lookupEntry rest k

/-- Dictionary deletion (`del d[key]`). -/
def dictErase {K B : Type} [DecidableEq K] (c : List (K × B)) (k : K) :
    List (K × B) :=
  c.filter (fun p => p.1 ≠ k)

/-- Dictionary insertion / overwrite (`d[key] = v`): overwrite in place
keeps the dict's insertion order, a new key goes to the end. -/
def dictInsert {K B : Type} [DecidableEq K] (c : List (K × B)) (k : K)
    (e : B) : List (K × B) :=
  if k ∈ dictKeys c then c.map (fun p => if p.1 = k then (k, e) else p)
  else c ++ [(k, e)]

/-- The state of one `EnhancedCache` instance (`utils/cache.py`).
`access_order` models `deque(maxlen=max_items)`, head = least recently used. -/
structure EnhancedCache (K V : Type) where
  cache : List (K × Entry V)
  access_order : List K
  hits : ℕ
  misses : ℕ
  max_items : ℕ
  default_ttl : ℚ
deriving DecidableEq, Repr

namespace EnhancedCache

variable {K V : Type} [DecidableEq K]

/-- `EnhancedCache.__init__(max_items)`: empty dict, empty deque,
zero counters, default TTL 60 seconds. -/
def init (V : Type) (max_items : ℕ) : EnhancedCache K V :=
  { cache := [], access_order := [], hits := 0, misses := 0,
    max_items := max_items, default_ttl := 60 }

/-- Appending to a `deque(maxlen = maxlen)`: if the deque is full the
leftmost element is dropped (for `maxlen = 0` nothing is retained). -/
def dequeAppend (maxlen : ℕ) (d : List K) (k : K) : List K :=
  let d1 := d ++ [k]
  d1.drop (d1.length - maxlen)

/-- `_update_access_order`: remove the key if present, then append it as
most recently used. -/
def update_access_order (s : EnhancedCache K V) (k : K) : EnhancedCache K V :=
  let ao := if k ∈ s.access_order then s.access_order.erase k else s.access_order
  { s with access_order := dequeAppend s.max_items ao k }

/-- `_remove_entry`: delete the key from the dict (if present) and from the
recency deque (if present). -/
def remove_entry (s : EnhancedCache K V) (k : K) : EnhancedCache K V :=
  let c := if k ∈ dictKeys s.cache then dictErase s.cache k else s.cache
  let ao := if k ∈ s.access_order then s.access_order.erase k else s.access_order
  { s with cache := c, access_order := ao }

/-- `_evict_lru`: remove the head of the recency deque, when nonempty. -/
def evict_lru (s : EnhancedCache K V) : EnhancedCache K V :=
  match s.access_order with
  | [] => s
  | lru :: _ => remove_entry s lru

/-- `EnhancedCache.get(key, default_ttl)`: returns `(is_hit, value)` and the
updated cache state; `now` is the value of `time.time()` at the call. -/
def get (s : EnhancedCache K V) (key : K) (default_ttl : Option ℚ) (now : ℚ) :
    (Bool × Option V) × EnhancedCache K V :=
  match lookupEntry s.cache key with
  | none => ((false, none), { s with misses := s.misses + 1 })
  | some entry =>
      let ttl := entry.ttl.getD (pyOrQ default_ttl s.default_ttl)
      if now - entry.timestamp.getD 0 > ttl then
        let s1 := remove_entry s key
        ((false, none), { s1 with misses := s1.misses + 1 })
      else
        let s1 := update_access_order s key
        ((true, some entry.data), { s1 with hits := s1.hits + 1 })

/-- `EnhancedCache.set(key, value, ttl)`: evict the LRU entry when the cache
is full and the key is new, then store
`{"data": value, "timestamp": now, "ttl": ttl or self.default_ttl}` and
refresh the recency position.  (The Python method also returns `value`.) -/
def set (s : EnhancedCache K V) (key : K) (value : V) (ttl : Option ℚ)
    (now : ℚ) : EnhancedCache K V :=
  let s1 := if s.cache.length ≥ s.max_items ∧ key ∉ dictKeys s.cache
            then evict_lru s else s
  let s2 := { s1 with
    cache := dictInsert s1.cache key
      { data := value, timestamp := some now,
        ttl := some (pyOrQ ttl s1.default_ttl) } }
  update_access_order s2 key

/-- `EnhancedCache.clear(key=None)`: remove one entry (with its recency
record) or everything.  (`key = none` models `clear()`.) -/
def clear (s : EnhancedCache K V) (key : Option K) : EnhancedCache K V :=
  match key with
  | some k =>
      if k ∈ dictKeys s.cache then
        { s with cache := dictErase s.cache k,
                 access_order := if k ∈ s.access_order
                                 then s.access_order.erase k
                                 else s.access_order }
      else s
  | none => { s with cache := [], access_order := [] }

end EnhancedCache

/-- One cache operation, tagged with the `time.time()` value at which it
runs (the model threads the clock explicitly). -/
inductive CacheOp (K V : Type) where
  | get (k : K) (default_ttl : Option ℚ) (now : ℚ)
  | set (k : K) (v : V) (ttl : Option ℚ) (now : ℚ)
  | clear (k : Option K)
deriving DecidableEq, Repr

/-- Apply one operation to a cache state. -/
def applyOp {K V : Type} [DecidableEq K] (s : EnhancedCache K V) :
    CacheOp K V → EnhancedCache K V
  | .get k d now => (EnhancedCache.get s k d now).2
  | .set k v ttl now => EnhancedCache.set s k v ttl now
  | .clear k => EnhancedCache.clear s k

/-- Run a sequence of operations from a fresh cache with capacity `maxI`. -/
def runOps {K V : Type} [DecidableEq K] (maxI : ℕ)
    (ops : List (CacheOp K V)) : EnhancedCache K V :=
  ops.foldl applyOp (EnhancedCache.init V maxI)

/-! ## `utils/retryable.py`: `RetryableOperation` -/

/-- Configuration of a `RetryableOperation` (`__init__`): `max_retries`,
`base_delay`, the retryable-exception test (`isinstance(e, self.retry_on)`),
and the jitter switch. -/
structure RetryConfig (E : Type) where
  max_retries : ℕ
  base_delay : ℚ
  retry_on : E → Bool
  use_jitter : Bool

/-- Outcome of `RetryableOperation.run`: a returned value or a raised
exception. -/
inductive RunOutcome (E V : Type) where
  | ok (v : V)
  | raise (e : E)
deriving DecidableEq, Repr

/-- The delay computed before the `rc`-th retry (`rc = retry_count ≥ 1`):
`min(base_delay * 2 ** (retry_count - 1), 60)`, plus
`random.uniform(0, 0.5 * delay)` when jitter is enabled.  The random draw
is modelled by the stream `jit`. -/
def retryDelay {E : Type} (cfg : RetryConfig E) (jit : ℕ → ℚ) (rc : ℕ) : ℚ :=
  let delay := min (cfg.base_delay * 2 ^ (rc - 1)) 60
  if cfg.use_jitter then delay + jit rc else delay

/-- The retry loop of `RetryableOperation.run`, starting an attempt with
`retry_count = k` (the `k`-th invocation, 0-based, since `retry_count` is
incremented exactly once per retryable failure).  `op k` is the outcome of
the `k`-th invocation of `operation_func`.  Returns the run outcome, the
total number of invocations, and the list of slept delays in order. -/
def runGo {E V : Type} (cfg : RetryConfig E) (op : ℕ → Except E V)
    (jit : ℕ → ℚ) (k : ℕ) (sleeps : List ℚ) :
    RunOutcome E V × ℕ × List ℚ :=
  match op k with
  | .ok v => (.ok v, k + 1, sleeps)
  | .error e =>
      if cfg.retry_on e then
        if h : k + 1 > cfg.max_retries then (.raise e, k + 1, sleeps)
        else runGo cfg op jit (k + 1)
          (sleeps ++ [retryDelay cfg jit (k + 1)])
      else (.raise e, k + 1, sleeps)
termination_by cfg.max_retries - k
decreasing_by omega

/-- `RetryableOperation.run`: execute with retry logic, starting from
`retry_count = 0` and no sleeps. -/
def RetryableOperation.run {E V : Type} (cfg : RetryConfig E)
    (op : ℕ → Except E V) (jit : ℕ → ℚ) : RunOutcome E V × ℕ × List ℚ :=
  runGo cfg op jit 0 []

/-! ## Ghost instrumentation: last-touch times for LRU reasoning

`runInstr` runs a trace of operations like `runOps` while also recording,
for each key, the index of the last operation that refreshed its recency
position (a cache-hitting `get` or a `set`).  This is verification-only
bookkeeping; the cache state it carries is exactly the one `runOps`
produces. -/

/-- Record that key `k` was touched at trace index `i`. -/
def touchUpd {K : Type} [DecidableEq K] (touch : K → Option ℕ) (k : K)
    (i : ℕ) : K → Option ℕ :=
  fun j => if j = k then some i else touch j

/-- Numeric view of a touch record (`0` when absent). -/
def touchN {K : Type} (touch : K → Option ℕ) (k : K) : ℕ :=
  (touch k).getD 0

/-- Apply one operation at trace index `i`, carrying the touch map. -/
def stepInstr {K V : Type} [DecidableEq K]
    (p : EnhancedCache K V × (K → Option ℕ)) (iop : ℕ × CacheOp K V) :
    EnhancedCache K V × (K → Option ℕ) :=
  match iop.2 with
  | .get k d now =>
      let r := EnhancedCache.get p.1 k d now
      (r.2, if r.1.1 then touchUpd p.2 k iop.1 else p.2)
  | .set k v ttl now =>
      (EnhancedCache.set p.1 k v ttl now, touchUpd p.2 k iop.1)
  | .clear k => (EnhancedCache.clear p.1 k, p.2)

/-- Run a trace from a fresh cache, recording last-touch indices. -/
def runInstr {K V : Type} [DecidableEq K] (maxI : ℕ)
    (ops : List (CacheOp K V)) : EnhancedCache K V × (K → Option ℕ) :=
  (ops.enum).foldl stepInstr (EnhancedCache.init V maxI, fun _ => none)

/-- The structural invariant of `EnhancedCache` claimed by the spec:
bounded size, recency sequence without duplicates, and recency keys in
lockstep with the entry map.  (`keys_nodup` and `len_eq` are the auxiliary
facts that make the invariant inductive.) -/
structure CacheInv {K V : Type} (s : EnhancedCache K V) : Prop where
  size_le : s.cache.length ≤ s.max_items
  keys_nodup : (dictKeys s.cache).Nodup
  ao_nodup : s.access_order.Nodup
  mem_iff : ∀ k, k ∈ dictKeys s.cache ↔ k ∈ s.access_order
  len_eq : s.access_order.length = s.cache.length

/-- The recency invariant: every resident key has a recorded touch index
below the trace position `n`, and `access_order` lists resident keys in
strictly increasing order of last touch (head = least recently used). -/
structure TouchInv {K V : Type} (s : EnhancedCache K V)
    (touch : K → Option ℕ) (n : ℕ) : Prop where
  defined : ∀ k ∈ s.access_order, (touch k).isSome = true
  bounded : ∀ k ∈ s.access_order, touchN touch k < n
  sorted : s.access_order.Pairwise (fun a b => touchN touch a < touchN touch b)

/-! ## `apis/google_api_manager.py`: exception model and the four caches -/

/-- The Python exception classes relevant to the retry configuration of
`GoogleAPIsManager` (`retry_on=(ConnectionError, TimeoutError,
BrokenPipeError)`); `other` stands for any unrelated exception. -/
inductive PyExc where
  | connectionError
  | timeoutError
  | brokenPipeError
  | other (n : ℕ)
deriving DecidableEq, Repr

/-- `isinstance(e, (ConnectionError, TimeoutError, BrokenPipeError))`. -/
def retryOnNetwork : PyExc → Bool
  | .connectionError => true
  | .timeoutError => true
  | .brokenPipeError => true
  | .other _ => false

/-- The four `EnhancedCache` instances owned by `GoogleAPIsManager`. -/
structure ManagerCaches (K V : Type) where
  inventory : EnhancedCache K V
  orders : EnhancedCache K V
  sheets : EnhancedCache K V
  drive : EnhancedCache K V
deriving DecidableEq, Repr

/-- `GoogleAPIsManager.__init__`: cache sizes 20/100/50/30 and default
TTLs 300/60/120/600 seconds. -/
def initCaches (K V : Type) : ManagerCaches K V :=
  { inventory := { EnhancedCache.init V 20 with default_ttl := 300 },
    orders := { EnhancedCache.init V 100 with default_ttl := 60 },
    sheets := { EnhancedCache.init V 50 with default_ttl := 120 },
    drive := { EnhancedCache.init V 30 with default_ttl := 600 } }

/-- `self.caches[cache_type]` after the normalization
`if cache_type not in self.caches: cache_type = "inventory"`. -/
def cacheFor {K V : Type} (m : ManagerCaches K V) (t : String) :
    EnhancedCache K V :=
  if t = "inventory" then m.inventory
  else if t = "orders" then m.orders
  else if t = "sheets" then m.sheets
  else if t = "drive" then m.drive
  else m.inventory

/-- Write back the selected cache (same normalization as `cacheFor`). -/
def setCacheFor {K V : Type} (m : ManagerCaches K V) (t : String)
    (c : EnhancedCache K V) : ManagerCaches K V :=
  if t = "inventory" then { m with inventory := c }
  else if t = "orders" then { m with orders := c }
  else if t = "sheets" then { m with sheets := c }
  else if t = "drive" then { m with drive := c }
  else { m with inventory := c }

/-- `GoogleAPIsManager._check_cache(cache_key, cache_type, max_age)`:
`ttl = max_age if max_age is not None else None`, then `cache.get`. -/
def check_cache {K V : Type} [DecidableEq K] (m : ManagerCaches K V)
    (cache_key : K) (cache_type : String) (max_age : Option ℚ) (now : ℚ) :
    (Bool × Option V) × ManagerCaches K V :=
  let r := EnhancedCache.get (cacheFor m cache_type) cache_key max_age now
  (r.1, setCacheFor m cache_type r.2)

/-- `GoogleAPIsManager._update_cache(cache_key, data, cache_type, ttl)`:
`cache.set` on the selected cache, returning the data for chaining. -/
def update_cache {K V : Type} [DecidableEq K] (m : ManagerCaches K V)
    (cache_key : K) (data : V) (cache_type : String) (ttl : Option ℚ)
    (now : ℚ) : V × ManagerCaches K V :=
  (data, setCacheFor m cache_type
    (EnhancedCache.set (cacheFor m cache_type) cache_key data ttl now))

/-! ## Inventory fetching and the static default catalog -/

/-- One spreadsheet row as a loosely-keyed record: each field models the
presence or absence of the corresponding dict key
(`Name`, `Strain`, `Tag`, `Type`, `Price`, `Stock`, `Weight`, `Brand`). -/
structure SheetItem where
  name : Option String
  strain : Option String
  tag : Option String
  typ : Option String
  price : Option ℚ
  stock : Option ℚ
  weight : Option String
  brand : Option String
deriving DecidableEq, Repr

/-- A categorized product record, as built in `fetch_inventory` /
`_create_default_inventory`. -/
structure Product where
  name : String
  key : String
  price : ℚ
  stock : ℚ
  tag : String
  strain : String
  weight : String
  brand : String
deriving DecidableEq, Repr

/-- Python's `str.lower()`, character-wise. -/
def pyLower (s : String) : String :=
  ⟨s.data.map Char.toLower⟩

/-- Python's `str.replace(' ', '_')`: with a single-character pattern this
is a character-wise substitution. -/
def pyUnderscoreSpaces (s : String) : String :=
  ⟨s.data.map (fun c => if c = ' ' then '_' else c)⟩

/-- The product dict built from a row: `product_name` falls back from
`Name` to `Strain` to `"Unknown"`; `key` lower-cases and underscores the
name; `tag` and `strain` are lower-cased with `""` defaults. -/
def mkProduct (it : SheetItem) : Product :=
  let product_name :=
    match it.name with
    | some n => n
    | none => it.strain.getD "Unknown"
  { name := product_name,
    key := pyUnderscoreSpaces (pyLower product_name),
    price := it.price.getD 0,
    stock := it.stock.getD 0,
    tag := pyLower (it.tag.getD ""),
    strain := pyLower (it.typ.getD ""),
    weight := it.weight.getD "",
    brand := it.brand.getD "" }

/-- `products_by_tag = {'buds': [], 'local': [], 'carts': [], 'edibs': []}`
(`loc` is the `'local'` bucket). -/
structure ProductsByTag where
  buds : List Product
  loc : List Product
  carts : List Product
  edibs : List Product
deriving DecidableEq, Repr

/-- `products_by_strain = {'indica': [], 'sativa': [], 'hybrid': []}`. -/
structure ProductsByStrain where
  indica : List Product
  sativa : List Product
  hybrid : List Product
deriving DecidableEq, Repr

/-- `if product_tag in products_by_tag: products_by_tag[product_tag].append(product)`. -/
def addByTag (bt : ProductsByTag) (p : Product) : ProductsByTag :=
  if p.tag = "buds" then { bt with buds := bt.buds ++ [p] }
  else if p.tag = "local" then { bt with loc := bt.loc ++ [p] }
  else if p.tag = "carts" then { bt with carts := bt.carts ++ [p] }
  else if p.tag = "edibs" then { bt with edibs := bt.edibs ++ [p] }
  else bt

/-- `if strain_type in products_by_strain: ...append(product)`. -/
def addByStrain (bs : ProductsByStrain) (p : Product) : ProductsByStrain :=
  if p.strain = "indica" then { bs with indica := bs.indica ++ [p] }
  else if p.strain = "sativa" then { bs with sativa := bs.sativa ++ [p] }
  else if p.strain = "hybrid" then { bs with hybrid := bs.hybrid ++ [p] }
  else bs

/-- The aggregate inventory result
`(products_by_tag, products_by_strain, all_products)`. -/
def InvResult : Type := ProductsByTag × ProductsByStrain × List Product

/-- `DEFAULT_INVENTORY` from `config/constants.py` (the built-in static
fallback catalog). -/
def DEFAULT_INVENTORY : List SheetItem :=
  [ { name := some "Unknown Indica", strain := none, tag := some "buds",
      typ := some "indica", price := some 2000, stock := some 5,
      weight := none, brand := none },
    { name := some "Unknown Sativa", strain := none, tag := some "buds",
      typ := some "sativa", price := some 2000, stock := some 5,
      weight := none, brand := none },
    { name := some "Unknown Hybrid", strain := none, tag := some "buds",
      typ := some "hybrid", price := some 2000, stock := some 5,
      weight := none, brand := none },
    { name := some "Local BG", strain := none, tag := some "local",
      typ := some "", price := some 1000, stock := some 10,
      weight := none, brand := none },
    { name := some "Basic Cart", strain := none, tag := some "carts",
      typ := some "", price := some 1500, stock := some 3,
      weight := some "1g", brand := some "Generic" },
    { name := some "Basic Edible", strain := none, tag := some "edibs",
      typ := some "hybrid", price := some 500, stock := some 5,
      weight := none, brand := none } ]

/-- `GoogleAPIsManager._create_default_inventory`: categorize
`DEFAULT_INVENTORY` (no stock filter; tag/strain buckets only for truthy,
known categories).  The accompanying degraded-mode warning log is modelled
by the `Bool` flag in `fetch_inventory`. -/
def create_default_inventory : InvResult :=
  DEFAULT_INVENTORY.foldl
    (fun acc it =>
      let p := mkProduct it
      ((if p.tag ≠ "" then addByTag acc.1 p else acc.1),
       (if p.strain ≠ "" then addByStrain acc.2.1 p else acc.2.1),
       acc.2.2 ++ [p]))
    (⟨[], [], [], []⟩, ⟨[], [], []⟩, [])

/-- The categorization loop of `fetch_inventory` over fetched rows: rows
with missing or non-positive `Stock` are skipped; every kept product goes
to `all_products` and to its tag/strain bucket when recognized. -/
def categorize (items : List SheetItem) : InvResult :=
  items.foldl
    (fun acc it =>
      match it.stock with
      | none => acc
      | some st =>
          if st ≤ 0 then acc
          else
            let p := mkProduct it
            (addByTag acc.1 p, addByStrain acc.2.1 p, acc.2.2 ++ [p]))
    (⟨[], [], [], []⟩, ⟨[], [], []⟩, [])

/-- The behaviour of the remote inventory source during one
`fetch_inventory` call: sheet initialization yields no inventory sheet,
the remote read raises on every attempt, or rows are returned. -/
inductive RemoteInventory where
  | noSheet
  | readRaises
  | rows (items : List SheetItem)

/-- `GoogleAPIsManager.fetch_inventory`: check the inventory cache; on a
miss consult the remote source, falling back to the static default catalog
(and logging the degraded-mode warning, modelled by the returned flag)
when no inventory sheet is available or the read raises; cache whatever is
returned.  Rate limiting touches no cache and is modelled separately. -/
def fetch_inventory (m : ManagerCaches String InvResult)
    (env : RemoteInventory) (now : ℚ) :
    InvResult × ManagerCaches String InvResult × Bool :=
  let chk := check_cache m "inventory_data" "inventory" none now
  match chk.1 with
  | (true, some data) => (data, chk.2, false)
  | _ =>
      match env with
      | .noSheet =>
          let d := create_default_inventory
          (d, (update_cache chk.2 "inventory_data" d "inventory" none now).2,
           true)
      | .readRaises =>
          let d := create_default_inventory
          (d, (update_cache chk.2 "inventory_data" d "inventory" none now).2,
           true)
      | .rows items =>
          let r := categorize items
          (r, (update_cache chk.2 "inventory_data" r "inventory" none now).2,
           false)

/-- `GoogleAPIsManager.add_order_to_sheet`, modelled on its cache effect:
sheet initialization success is the oracle `sheetOk`; the insert attempts
are the oracle `append` driven through `RetryableOperation` with
`max_retries=3` and the network retryable set; on success the whole orders
cache is cleared; any raised exception is caught and yields `False`. -/
def add_order_to_sheet {K V : Type} [DecidableEq K] (m : ManagerCaches K V)
    (sheetOk : Bool) (append : ℕ → Except PyExc Bool) (jit : ℕ → ℚ) :
    Bool × ManagerCaches K V :=
  if sheetOk = false then (false, m)
  else
    match (RetryableOperation.run ⟨3, 1, retryOnNetwork, true⟩ append jit).1 with
    | .ok success =>
        (success,
         if success then { m with orders := EnhancedCache.clear m.orders none }
         else m)
    | .raise _ => (false, m)

/-! ## `GoogleAPIsManager._rate_limit_request` -/

/-- The per-operation-class minimum wait table (`min_wait_times`), with the
`default` fallback of `dict.get`. -/
def min_wait_times (api : String) : ℚ :=
  if api = "sheets" then 1
  else if api = "sheets_read" then 1/2
  else if api = "sheets_write" then 6/5
  else if api = "drive" then 3/2
  else if api = "inventory" then 4/5
  else 1

/-- The housekeeping step: when more than 20 operation classes are
tracked, keep the 10 most recent (sorted by timestamp, descending). -/
def cleanupTimes (d : List (String × ℚ)) : List (String × ℚ) :=
  if d.length > 20 then (d.mergeSort (fun a b => decide (b.2 ≤ a.2))).take 10
  else d

/-- The sleep performed by `_rate_limit_request`: if less than `min_wait`
elapsed since the recorded last request (`dict.get` default `0`), wait
`min_wait - time_since_last + 0.1`, jittered by `±10%` (the draw `u` models
`random.uniform(-0.1, 0.1)`), floored at `0.1`; otherwise do not sleep. -/
def rl_slept (st : List (String × ℚ)) (api : String) (now u : ℚ) : ℚ :=
  let min_wait := min_wait_times api
  let last_request := (lookupEntry st api).getD 0
  let time_since_last := now - last_request
  if time_since_last < min_wait then
    let wait_time := min_wait - time_since_last + 1/10
    let jitter := u * wait_time
    max (1/10) (wait_time + jitter)
  else 0

/-- `GoogleAPIsManager._rate_limit_request(api_name)`:
with `now` the entry time and `u` the `random.uniform(-0.1, 0.1)` draw,
returns the slept amount and the updated `last_request_time` map (the
recorded timestamp is `time.time()` after the sleep, i.e. `now + slept`;
the model treats the computation between as instantaneous), with the
housekeeping step applied. -/
def rate_limit_request (st : List (String × ℚ)) (api : String)
    (now u : ℚ) : ℚ × List (String × ℚ) :=
  (rl_slept st api now u,
   cleanupTimes (dictInsert st api (now + rl_slept st api now u)))

/-- Helper: when every invocation up to `max_retries` fails with a
retryable exception, the retry loop reaches exhaustion, raising the last
exception after `max_retries + 1` invocations, having slept once before
each retry. -/
lemma runGo_allFail {E V : Type} (cfg : RetryConfig E) (op : ℕ → Except E V)
    (jit : ℕ → ℚ) (e : ℕ → E)
    (hop : ∀ k, k ≤ cfg.max_retries → op k = .error (e k))
    (hr : ∀ k, k ≤ cfg.max_retries → cfg.retry_on (e k) = true) :
    ∀ (n k : ℕ), k + n = cfg.max_retries → ∀ (sleeps : List ℚ),
      runGo cfg op jit k sleeps =
        (.raise (e cfg.max_retries), cfg.max_retries + 1,
         sleeps ++ (List.range' (k + 1) n 1).map (retryDelay cfg jit)) := by
  intro n
  induction n with
  | zero =>
      intro k hk sleeps
      have hk' : k = cfg.max_retries := by omega
      subst hk'
      rw [runGo]
      simp [hop _ le_rfl, hr _ le_rfl]
  | succ n ih =>
      intro k hk sleeps
      have hk1 : k ≤ cfg.max_retries := by omega
      rw [runGo]
      simp only [hop k hk1, hr k hk1, if_true]
      rw [dif_neg (by omega)]
      rw [ih (k + 1) (by omega)]
      rw [List.range'_succ]
      simp

/-- **C1.** For every retryable-operation configuration with
`max_retries = N` and every operation that raises an exception in the
configured retryable set on every invocation, `RetryableOperation.run`
invokes the operation exactly `N + 1` times (one initial try plus `N`
retries) and then raises, where the raised exception is the exception the
operation raised on its last invocation. -/
theorem retry_exhaustion {E V : Type} (cfg : RetryConfig E)
    (op : ℕ → Except E V) (jit : ℕ → ℚ) (e : ℕ → E)
    (hop : ∀ k, k ≤ cfg.max_retries → op k = .error (e k))
    (hr : ∀ k, k ≤ cfg.max_retries → cfg.retry_on (e k) = true) :
    RetryableOperation.run cfg op jit =
      (.raise (e cfg.max_retries), cfg.max_retries + 1,
       (List.range' 1 cfg.max_retries 1).map (retryDelay cfg jit)) := by
  have h := runGo_allFail cfg op jit e hop hr cfg.max_retries 0 (by omega) []
  simpa [RetryableOperation.run] using h

/-- Witness for C1: a configuration with `max_retries = 3` and an
always-failing operation performs exactly 4 invocations, sleeping
1, 2 and 4 seconds between them, and raises the injected exception. -/
theorem retry_exhaustion_witness :
    RetryableOperation.run (E := ℕ) (V := ℕ)
        ⟨3, 1, fun _ => true, false⟩ (fun _ => .error 7) (fun _ => 0) =
      (.raise 7, 4, [1, 2, 4]) := by
  have h := retry_exhaustion (E := ℕ) (V := ℕ)
    ⟨3, 1, fun _ => true, false⟩ (fun _ => .error 7) (fun _ => 0)
    (fun _ => 7) (fun _ _ => rfl) (fun _ _ => rfl)
  rw [h]
  norm_num [retryDelay, List.range', min_def]

/-- **C2.** For every retryable-operation configuration and every operation
whose first invocation raises an exception not in the configured retryable
set, `RetryableOperation.run` invokes the operation exactly once and
re-raises that same exception, regardless of `max_retries`; no retry sleep
occurs (the slept-delay list is empty). -/
theorem retry_fast_fail {E V : Type} (cfg : RetryConfig E)
    (op : ℕ → Except E V) (jit : ℕ → ℚ) (e : E)
    (hop : op 0 = .error e) (hr : cfg.retry_on e = false) :
    RetryableOperation.run cfg op jit = (.raise e, 1, []) := by
  rw [RetryableOperation.run, runGo]
  simp [hop, hr]

/-- Witness for C2: a non-retryable failure on the first invocation is
re-raised at once, with one invocation and no sleeps, despite
`max_retries = 3`. -/
theorem retry_fast_fail_witness :
    RetryableOperation.run (E := ℕ) (V := ℕ)
        ⟨3, 1, fun e => e == 0, true⟩ (fun _ => .error 9) (fun _ => 0) =
      (.raise 9, 1, []) :=
  retry_fast_fail ⟨3, 1, fun e => e == 0, true⟩ (fun _ => .error 9)
    (fun _ => 0) 9 rfl rfl

/-- Helper: when the first `k ≤ max_retries` invocations fail retryably,
the retry loop has slept exactly the `k` backoff delays by the time it
starts attempt `k`. -/
lemma runGo_prefix {E V : Type} (cfg : RetryConfig E) (op : ℕ → Except E V)
    (jit : ℕ → ℚ) (e : ℕ → E) :
    ∀ (k : ℕ), (∀ j, j < k → op j = .error (e j)) →
      (∀ j, j < k → cfg.retry_on (e j) = true) → k ≤ cfg.max_retries →
      runGo cfg op jit 0 [] =
        runGo cfg op jit k ((List.range' 1 k 1).map (retryDelay cfg jit)) := by
  intro k
  induction k with
  | zero => intro _ _ _; rfl
  | succ k ih =>
      intro hop hr hk
      rw [ih (fun j hj => hop j (by omega)) (fun j hj => hr j (by omega))
        (by omega)]
      rw [runGo]
      simp only [hop k (by omega), hr k (by omega), if_true]
      rw [dif_neg (by omega)]
      congr 1
      rw [List.range'_concat, List.map_append]
      simp only [List.map_cons, List.map_nil]
      have : 1 + 1 * k = k + 1 := by omega
      rw [this]

/-- Helper: the retry loop only ever appends to the slept-delay list. -/
lemma runGo_sleeps_extend {E V : Type} (cfg : RetryConfig E)
    (op : ℕ → Except E V) (jit : ℕ → ℚ) :
    ∀ (fuel k : ℕ) (sleeps : List ℚ), cfg.max_retries + 1 - k ≤ fuel →
      ∃ tail, (runGo cfg op jit k sleeps).2.2 = sleeps ++ tail := by
  intro fuel
  induction fuel with
  | zero =>
      intro k sleeps hf
      rw [runGo]
      rcases hop : op k with e | v
      · dsimp only
        by_cases hr : cfg.retry_on e = true
        · rw [if_pos hr, dif_pos (by omega)]
          exact ⟨[], by simp⟩
        · rw [if_neg hr]
          exact ⟨[], by simp⟩
      · exact ⟨[], by simp⟩
  | succ fuel ih =>
      intro k sleeps hf
      rw [runGo]
      rcases hop : op k with e | v
      · dsimp only
        by_cases hr : cfg.retry_on e = true
        · rw [if_pos hr]
          by_cases hgt : k + 1 > cfg.max_retries
          · rw [dif_pos hgt]
            exact ⟨[], by simp⟩
          · rw [dif_neg hgt]
            obtain ⟨tail, ht⟩ := ih (k + 1)
              (sleeps ++ [retryDelay cfg jit (k + 1)]) (by omega)
            exact ⟨retryDelay cfg jit (k + 1) :: tail, by
              rw [ht]; simp⟩
        · rw [if_neg hr]
          exact ⟨[], by simp⟩
      · exact ⟨[], by simp⟩

/-- **C3.** For every `k` with `1 ≤ k ≤ max_retries`, in any run that
reaches the `k`-th retry (the first `k` invocations fail retryably), the
delay slept by `RetryableOperation.run` before the `k`-th retry equals
`min(base_delay * 2 ^ (k - 1), 60)` plus, when jitter is enabled, the
random draw from `[0, 0.5 * min(base_delay * 2 ^ (k - 1), 60)]`; hence for
every draw within those bounds the slept delay `d` satisfies
`min(base_delay * 2 ^ (k - 1), 60) ≤ d ≤ 1.5 * min(base_delay * 2 ^ (k - 1), 60)`. -/
theorem retry_backoff_delay {E V : Type} (cfg : RetryConfig E)
    (op : ℕ → Except E V) (jit : ℕ → ℚ) (e : ℕ → E) (k : ℕ)
    (hop : ∀ j, j < k → op j = .error (e j))
    (hr : ∀ j, j < k → cfg.retry_on (e j) = true)
    (hk1 : 1 ≤ k) (hk2 : k ≤ cfg.max_retries)
    (hbase : 0 ≤ cfg.base_delay)
    (hj0 : 0 ≤ jit k)
    (hj1 : jit k ≤ 1/2 * min (cfg.base_delay * 2 ^ (k - 1)) 60) :
    ∃ d, ((RetryableOperation.run cfg op jit).2.2)[k - 1]? = some d ∧
      d = (if cfg.use_jitter
           then min (cfg.base_delay * 2 ^ (k - 1)) 60 + jit k
           else min (cfg.base_delay * 2 ^ (k - 1)) 60) ∧
      min (cfg.base_delay * 2 ^ (k - 1)) 60 ≤ d ∧
      d ≤ 3/2 * min (cfg.base_delay * 2 ^ (k - 1)) 60 := by
  have hD0 : (0:ℚ) ≤ min (cfg.base_delay * 2 ^ (k - 1)) 60 := by
    apply le_min
    · exact mul_nonneg hbase (by positivity)
    · norm_num
  refine ⟨retryDelay cfg jit k, ?_, ?_, ?_, ?_⟩
  · rw [RetryableOperation.run, runGo_prefix cfg op jit e k hop hr hk2]
    obtain ⟨tail, ht⟩ := runGo_sleeps_extend cfg op jit
      (cfg.max_retries + 1 - k) k
      ((List.range' 1 k 1).map (retryDelay cfg jit)) le_rfl
    rw [ht, List.getElem?_append,
      if_pos (by simp [List.length_range']; omega)]
    have hlt : k - 1 < k := by omega
    simp only [List.getElem?_map, List.getElem?_range' _ _ hlt,
      Option.map_some']
    have hks : 1 + 1 * (k - 1) = k := by omega
    rw [hks]
  · rw [retryDelay]
  · rw [retryDelay]
    by_cases hj : cfg.use_jitter = true
    · rw [if_pos hj]; linarith
    · rw [if_neg hj]
  · rw [retryDelay]
    by_cases hj : cfg.use_jitter = true
    · rw [if_pos hj]; linarith
    · rw [if_neg hj]; linarith

/-- Witness for C3: with `base_delay = 1`, jitter enabled, a draw of `1/2`
before the second retry yields a slept delay of `5/2`, within
`[2, 3] = [min(1*2,60), 1.5*min(1*2,60)]`. -/
theorem retry_backoff_delay_witness :
    ∃ d, ((RetryableOperation.run (E := ℕ) (V := ℕ)
        ⟨3, 1, fun _ => true, true⟩ (fun _ => .error 7)
        (fun _ => 1/2)).2.2)[1]? = some d ∧
      d = 5/2 ∧ (2:ℚ) ≤ d ∧ d ≤ 3 := by
  have h := retry_backoff_delay (E := ℕ) (V := ℕ)
    ⟨3, 1, fun _ => true, true⟩ (fun _ => .error 7)
    (fun _ => 1/2) (fun _ => 7) 2 (fun _ _ => rfl) (fun _ _ => rfl)
    (by norm_num) (by norm_num) (by norm_num) (by norm_num)
    (by norm_num [min_def])
  obtain ⟨d, h1, h2, h3, h4⟩ := h
  norm_num [min_def] at h1 h2 h3 h4
  exact ⟨d, h1, h2, h3, h4⟩

/-! ## Association-list (Python dict) lemmas -/

section DictLemmas

variable {K B : Type} [DecidableEq K]

lemma dictKeys_cons (k' : K) (e' : B) (rest : List (K × B)) :
    dictKeys ((k', e') :: rest) = k' :: dictKeys rest := rfl

lemma lookupEntry_cons (k' : K) (e' : B) (rest : List (K × B)) (k : K) :
    lookupEntry ((k', e') :: rest) k
      = if k = k' then some e' else lookupEntry rest k := rfl

lemma mem_dictKeys_iff_lookup (c : List (K × B)) (k : K) :
    k ∈ dictKeys c ↔ (lookupEntry c k).isSome = true := by
  induction c with
  | nil => simp [dictKeys, lookupEntry]
  | cons p rest ih =>
      obtain ⟨k', e⟩ := p
      rw [dictKeys_cons, lookupEntry_cons, List.mem_cons]
      by_cases h : k = k'
      · simp [h]
      · simp [h, Ne.symm h, ih]

lemma lookupEntry_eq_none_of_not_mem {c : List (K × B)} {k : K}
    (h : k ∉ dictKeys c) : lookupEntry c k = none := by
  rcases hl : lookupEntry c k with _ | e
  · rfl
  · exact absurd ((mem_dictKeys_iff_lookup c k).2 (by simp [hl])) h

lemma lookupEntry_append_self {c : List (K × B)} {k : K} (e : B)
    (h : k ∉ dictKeys c) : lookupEntry (c ++ [(k, e)]) k = some e := by
  induction c with
  | nil => simp [lookupEntry]
  | cons p rest ih =>
      obtain ⟨k', e'⟩ := p
      rw [dictKeys_cons, List.mem_cons] at h
      push_neg at h
      rw [List.cons_append, lookupEntry_cons, if_neg h.1]
      exact ih h.2

lemma lookupEntry_map_replace_self {c : List (K × B)} {k : K} (e : B)
    (h : k ∈ dictKeys c) :
    lookupEntry (c.map (fun p => if p.1 = k then (k, e) else p)) k
      = some e := by
  induction c with
  | nil => simp [dictKeys] at h
  | cons p rest ih =>
      obtain ⟨k', e'⟩ := p
      rw [dictKeys_cons, List.mem_cons] at h
      rw [List.map_cons]
      by_cases hk : k' = k
      · subst hk
        rw [if_pos rfl, lookupEntry_cons, if_pos rfl]
      · rw [if_neg (by simpa using hk), lookupEntry_cons,
          if_neg (fun hkk => hk hkk.symm)]
        exact ih (h.resolve_left (fun hkk => hk hkk.symm))

lemma lookupEntry_dictInsert_self (c : List (K × B)) (k : K) (e : B) :
    lookupEntry (dictInsert c k e) k = some e := by
  rw [dictInsert]
  by_cases h : k ∈ dictKeys c
  · rw [if_pos h]; exact lookupEntry_map_replace_self e h
  · rw [if_neg h]; exact lookupEntry_append_self e h

lemma lookupEntry_map_replace_ne {c : List (K × B)} {k j : K} (e : B)
    (h : j ≠ k) :
    lookupEntry (c.map (fun p => if p.1 = k then (k, e) else p)) j
      = lookupEntry c j := by
  induction c with
  | nil => rfl
  | cons p rest ih =>
      obtain ⟨k', e'⟩ := p
      rw [List.map_cons]
      by_cases hk : k' = k
      · subst hk
        rw [if_pos rfl, lookupEntry_cons, lookupEntry_cons, if_neg h]
        rw [if_neg h, ih]
      · rw [if_neg (by simpa using hk), lookupEntry_cons, lookupEntry_cons]
        by_cases hj : j = k'
        · rw [if_pos hj, if_pos hj]
        · rw [if_neg hj, if_neg hj, ih]

lemma lookupEntry_append_ne {c : List (K × B)} {k j : K} (e : B)
    (h : j ≠ k) : lookupEntry (c ++ [(k, e)]) j = lookupEntry c j := by
  induction c with
  | nil => simp [lookupEntry, h]
  | cons p rest ih =>
      obtain ⟨k', e'⟩ := p
      rw [List.cons_append, lookupEntry_cons, lookupEntry_cons]
      by_cases hj : j = k'
      · rw [if_pos hj, if_pos hj]
      · rw [if_neg hj, if_neg hj, ih]

lemma lookupEntry_dictInsert_ne {c : List (K × B)} {k j : K} (e : B)
    (h : j ≠ k) : lookupEntry (dictInsert c k e) j = lookupEntry c j := by
  rw [dictInsert]
  by_cases hm : k ∈ dictKeys c
  · rw [if_pos hm, lookupEntry_map_replace_ne e h]
  · rw [if_neg hm, lookupEntry_append_ne e h]

lemma dictKeys_map_replace (c : List (K × B)) (k : K) (e : B) :
    dictKeys (c.map (fun p => if p.1 = k then (k, e) else p))
      = dictKeys c := by
  induction c with
  | nil => rfl
  | cons p rest ih =>
      obtain ⟨k', e'⟩ := p
      rw [List.map_cons, dictKeys_cons]
      by_cases hk : k' = k
      · subst hk
        rw [if_pos rfl, dictKeys_cons, ih]
      · rw [if_neg (by simpa using hk), dictKeys_cons, ih]

lemma dictKeys_dictInsert (c : List (K × B)) (k : K) (e : B) :
    dictKeys (dictInsert c k e)
      = if k ∈ dictKeys c then dictKeys c else dictKeys c ++ [k] := by
  rw [dictInsert]
  by_cases h : k ∈ dictKeys c
  · rw [if_pos h, if_pos h, dictKeys_map_replace]
  · rw [if_neg h, if_neg h]
    simp [dictKeys]

lemma length_dictInsert (c : List (K × B)) (k : K) (e : B) :
    (dictInsert c k e).length
      = if k ∈ dictKeys c then c.length else c.length + 1 := by
  rw [dictInsert]
  by_cases h : k ∈ dictKeys c
  · rw [if_pos h, if_pos h, List.length_map]
  · rw [if_neg h, if_neg h]
    simp

lemma mem_dictKeys_dictErase {c : List (K × B)} {k j : K} :
    j ∈ dictKeys (dictErase c k) ↔ j ∈ dictKeys c ∧ j ≠ k := by
  simp only [dictErase, dictKeys, List.mem_map, List.mem_filter]
  constructor
  · rintro ⟨p, ⟨hp, hne⟩, rfl⟩
    exact ⟨⟨p, hp, rfl⟩, by simpa using hne⟩
  · rintro ⟨⟨p, hp, rfl⟩, hne⟩
    exact ⟨p, ⟨hp, by simpa using hne⟩, rfl⟩

lemma not_mem_dictKeys_dictErase (c : List (K × B)) (k : K) :
    k ∉ dictKeys (dictErase c k) := by
  simp [mem_dictKeys_dictErase]

lemma dictKeys_dictErase (c : List (K × B)) (k : K) :
    dictKeys (dictErase c k) = (dictKeys c).filter (fun j => j ≠ k) := by
  induction c with
  | nil => rfl
  | cons p rest ih =>
      obtain ⟨k', e'⟩ := p
      by_cases hk : k' = k
      · subst hk; simpa [dictErase, dictKeys] using ih
      · simpa [dictErase, dictKeys, hk] using ih

end DictLemmas

/-! ## `EnhancedCache` step lemmas -/

section CacheLemmas

variable {K V : Type} [DecidableEq K]

lemma evict_lru_hits (s : EnhancedCache K V) :
    (EnhancedCache.evict_lru s).hits = s.hits := by
  cases hao : s.access_order with
  | nil => simp [EnhancedCache.evict_lru, hao]
  | cons lru rest =>
      simp [EnhancedCache.evict_lru, hao, EnhancedCache.remove_entry]

lemma evict_lru_misses (s : EnhancedCache K V) :
    (EnhancedCache.evict_lru s).misses = s.misses := by
  cases hao : s.access_order with
  | nil => simp [EnhancedCache.evict_lru, hao]
  | cons lru rest =>
      simp [EnhancedCache.evict_lru, hao, EnhancedCache.remove_entry]

lemma evict_lru_max_items (s : EnhancedCache K V) :
    (EnhancedCache.evict_lru s).max_items = s.max_items := by
  cases hao : s.access_order with
  | nil => simp [EnhancedCache.evict_lru, hao]
  | cons lru rest =>
      simp [EnhancedCache.evict_lru, hao, EnhancedCache.remove_entry]

lemma evict_lru_default_ttl (s : EnhancedCache K V) :
    (EnhancedCache.evict_lru s).default_ttl = s.default_ttl := by
  cases hao : s.access_order with
  | nil => simp [EnhancedCache.evict_lru, hao]
  | cons lru rest =>
      simp [EnhancedCache.evict_lru, hao, EnhancedCache.remove_entry]

lemma set_hits (s : EnhancedCache K V) (key : K) (v : V) (ttl : Option ℚ)
    (now : ℚ) : (EnhancedCache.set s key v ttl now).hits = s.hits := by
  simp only [EnhancedCache.set]
  split_ifs with h
  · exact evict_lru_hits s
  · rfl

lemma set_misses (s : EnhancedCache K V) (key : K) (v : V) (ttl : Option ℚ)
    (now : ℚ) : (EnhancedCache.set s key v ttl now).misses = s.misses := by
  simp only [EnhancedCache.set]
  split_ifs with h
  · exact evict_lru_misses s
  · rfl

lemma set_max_items (s : EnhancedCache K V) (key : K) (v : V)
    (ttl : Option ℚ) (now : ℚ) :
    (EnhancedCache.set s key v ttl now).max_items = s.max_items := by
  simp only [EnhancedCache.set]
  split_ifs with h
  · exact evict_lru_max_items s
  · rfl

lemma set_default_ttl (s : EnhancedCache K V) (key : K) (v : V)
    (ttl : Option ℚ) (now : ℚ) :
    (EnhancedCache.set s key v ttl now).default_ttl = s.default_ttl := by
  simp only [EnhancedCache.set]
  split_ifs with h
  · exact evict_lru_default_ttl s
  · rfl

lemma get_miss_absent {s : EnhancedCache K V} {key : K} (d : Option ℚ)
    (now : ℚ) (h : lookupEntry s.cache key = none) :
    EnhancedCache.get s key d now
      = ((false, none), { s with misses := s.misses + 1 }) := by
  simp [EnhancedCache.get, h]

lemma get_expired {s : EnhancedCache K V} {key : K} {e : Entry V}
    (d : Option ℚ) (now : ℚ) (hl : lookupEntry s.cache key = some e)
    (hexp : now - e.timestamp.getD 0 > e.ttl.getD (pyOrQ d s.default_ttl)) :
    EnhancedCache.get s key d now
      = ((false, none),
         { EnhancedCache.remove_entry s key with
           misses := (EnhancedCache.remove_entry s key).misses + 1 }) := by
  simp [EnhancedCache.get, hl, hexp]

lemma get_hit {s : EnhancedCache K V} {key : K} {e : Entry V}
    (d : Option ℚ) (now : ℚ) (hl : lookupEntry s.cache key = some e)
    (hfresh : ¬ (now - e.timestamp.getD 0
                  > e.ttl.getD (pyOrQ d s.default_ttl))) :
    EnhancedCache.get s key d now
      = ((true, some e.data),
         { EnhancedCache.update_access_order s key with
           hits := (EnhancedCache.update_access_order s key).hits + 1 }) := by
  simp [EnhancedCache.get, hl, hfresh]

lemma lookup_set_self (s : EnhancedCache K V) (key : K) (v : V)
    (ttl : Option ℚ) (now : ℚ) :
    lookupEntry (EnhancedCache.set s key v ttl now).cache key
      = some ⟨v, some now, some (pyOrQ ttl s.default_ttl)⟩ := by
  simp only [EnhancedCache.set]
  split_ifs with h
  · show lookupEntry (dictInsert (EnhancedCache.evict_lru s).cache key
      ⟨v, some now, some (pyOrQ ttl (EnhancedCache.evict_lru s).default_ttl)⟩)
      key = _
    rw [lookupEntry_dictInsert_self, evict_lru_default_ttl]
  · show lookupEntry (dictInsert s.cache key
      ⟨v, some now, some (pyOrQ ttl s.default_ttl)⟩) key = _
    rw [lookupEntry_dictInsert_self]

lemma nodup_dequeAppend {m : ℕ} {d : List K} {k : K} (hd : d.Nodup)
    (hk : k ∉ d) : (EnhancedCache.dequeAppend m d k).Nodup := by
  have h1 : (d ++ [k]).Nodup := by
    rw [List.nodup_append]
    exact ⟨hd, List.nodup_singleton k, by simpa using hk⟩
  exact List.Pairwise.sublist (List.drop_sublist _ _) h1

lemma update_access_order_nodup {s : EnhancedCache K V} {k : K}
    (h : s.access_order.Nodup) :
    (EnhancedCache.update_access_order s k).access_order.Nodup := by
  simp only [EnhancedCache.update_access_order]
  split_ifs with hm
  · exact nodup_dequeAppend (List.Nodup.erase k h)
      (fun hmem => absurd ((List.Nodup.mem_erase_iff h).1 hmem).1
        (by simp))
  · exact nodup_dequeAppend h hm

lemma evict_lru_ao_nodup {s : EnhancedCache K V}
    (h : s.access_order.Nodup) :
    (EnhancedCache.evict_lru s).access_order.Nodup := by
  cases hao : s.access_order with
  | nil => simp [EnhancedCache.evict_lru, hao, h]
  | cons lru rest =>
      rw [hao] at h
      simp only [EnhancedCache.evict_lru, hao, EnhancedCache.remove_entry]
      split_ifs with hm
      · exact List.Nodup.erase lru h
      · exact h

lemma set_ao_nodup {s : EnhancedCache K V} (key : K) (v : V)
    (ttl : Option ℚ) (now : ℚ) (h : s.access_order.Nodup) :
    (EnhancedCache.set s key v ttl now).access_order.Nodup := by
  simp only [EnhancedCache.set]
  split_ifs with hc
  · exact update_access_order_nodup (evict_lru_ao_nodup h)
  · exact update_access_order_nodup h

end CacheLemmas

/-- **C4.** For every cache, key, and entry stored at time `t0` with
time-to-live `T > 0`: a `get(key)` performed at time `t` with
`t - t0 ≤ T` (including exactly `t - t0 = T`, by the strict `>`
comparison) returns `(true, stored value)`, increments the hit counter,
and leaves the entry resident; a `get(key)` performed at time `t` with
`t - t0 > T` returns `(false, None)`, increments the miss counter, and
removes the entry and its recency record at lookup time; and a `get` of
an absent key returns `(false, None)` and increments the miss counter.
(The recency sequence is assumed duplicate-free, as in every reachable
cache state.) -/
theorem cache_ttl_boundary {K V : Type} [DecidableEq K]
    (s : EnhancedCache K V) (key : K) (v : V) (T t0 t : ℚ) (d : Option ℚ)
    (hT : 0 < T) (hN : s.access_order.Nodup) :
    ((t - t0 ≤ T →
      (EnhancedCache.get (EnhancedCache.set s key v (some T) t0) key d t).1
        = (true, some v) ∧
      (EnhancedCache.get (EnhancedCache.set s key v (some T) t0) key d t).2.hits
        = s.hits + 1 ∧
      key ∈ dictKeys
        (EnhancedCache.get (EnhancedCache.set s key v (some T) t0) key d t).2.cache) ∧
     (t - t0 > T →
      (EnhancedCache.get (EnhancedCache.set s key v (some T) t0) key d t).1
        = (false, none) ∧
      (EnhancedCache.get (EnhancedCache.set s key v (some T) t0) key d t).2.misses
        = s.misses + 1 ∧
      key ∉ dictKeys
        (EnhancedCache.get (EnhancedCache.set s key v (some T) t0) key d t).2.cache ∧
      key ∉
        (EnhancedCache.get (EnhancedCache.set s key v (some T) t0) key d t).2.access_order)) ∧
    (∀ (s' : EnhancedCache K V) (k' : K) (d' : Option ℚ) (t' : ℚ),
      lookupEntry s'.cache k' = none →
      (EnhancedCache.get s' k' d' t').1 = (false, none) ∧
      (EnhancedCache.get s' k' d' t').2.misses = s'.misses + 1) := by
  have hTne : T ≠ 0 := ne_of_gt hT
  have hpy : pyOrQ (some T) s.default_ttl = T := by simp [pyOrQ, hTne]
  have hl : lookupEntry (EnhancedCache.set s key v (some T) t0).cache key
      = some ⟨v, some t0, some T⟩ := by
    rw [lookup_set_self, hpy]
  refine ⟨⟨?_, ?_⟩, ?_⟩
  · intro hle
    have hfresh : ¬ (t - (Entry.timestamp ⟨v, some t0, some T⟩).getD 0
        > (Entry.ttl ⟨v, some t0, some T⟩).getD
            (pyOrQ d (EnhancedCache.set s key v (some T) t0).default_ttl)) := by
      simp only [Option.getD_some]
      exact not_lt.2 hle
    rw [get_hit d t hl hfresh]
    refine ⟨rfl, ?_, ?_⟩
    · show (EnhancedCache.update_access_order
        (EnhancedCache.set s key v (some T) t0) key).hits + 1 = s.hits + 1
      rw [show (EnhancedCache.update_access_order
        (EnhancedCache.set s key v (some T) t0) key).hits
          = (EnhancedCache.set s key v (some T) t0).hits from rfl, set_hits]
    · show key ∈ dictKeys (EnhancedCache.set s key v (some T) t0).cache
      rw [mem_dictKeys_iff_lookup, hl]
      rfl
  · intro hgt
    have hexp : t - (Entry.timestamp ⟨v, some t0, some T⟩).getD 0
        > (Entry.ttl ⟨v, some t0, some T⟩).getD
            (pyOrQ d (EnhancedCache.set s key v (some T) t0).default_ttl) := by
      simpa only [Option.getD_some] using hgt
    rw [get_expired d t hl hexp]
    have hmem : key ∈ dictKeys (EnhancedCache.set s key v (some T) t0).cache := by
      rw [mem_dictKeys_iff_lookup, hl]; rfl
    refine ⟨rfl, ?_, ?_, ?_⟩
    · show (EnhancedCache.remove_entry
        (EnhancedCache.set s key v (some T) t0) key).misses + 1 = s.misses + 1
      rw [show (EnhancedCache.remove_entry
        (EnhancedCache.set s key v (some T) t0) key).misses
          = (EnhancedCache.set s key v (some T) t0).misses from rfl, set_misses]
    · show key ∉ dictKeys (EnhancedCache.remove_entry
        (EnhancedCache.set s key v (some T) t0) key).cache
      simp only [EnhancedCache.remove_entry, if_pos hmem]
      exact not_mem_dictKeys_dictErase _ _
    · show key ∉ (EnhancedCache.remove_entry
        (EnhancedCache.set s key v (some T) t0) key).access_order
      simp only [EnhancedCache.remove_entry]
      have hnod : (EnhancedCache.set s key v (some T) t0).access_order.Nodup :=
        set_ao_nodup key v (some T) t0 hN
      split_ifs with hao
      · exact fun hmem2 =>
          absurd ((List.Nodup.mem_erase_iff hnod).1 hmem2).1 (by simp)
      · exact hao
  · intro s' k' d' t' habs
    rw [get_miss_absent d' t' habs]
    exact ⟨rfl, rfl⟩

/-- Witness for C4: storing key 1 with TTL 60 at time 0 in a fresh cache,
the stated boundary behaviour holds at any probe time (both implications
and the absent-key clause are available; e.g. a probe at `t = 60` hits). -/
theorem cache_ttl_boundary_witness :
    ((60 - 0 ≤ (60:ℚ) →
      (EnhancedCache.get (EnhancedCache.set
          (EnhancedCache.init (K := ℕ) ℕ 100) 1 42 (some 60) 0) 1 none 60).1
        = (true, some 42) ∧
      (EnhancedCache.get (EnhancedCache.set
          (EnhancedCache.init (K := ℕ) ℕ 100) 1 42 (some 60) 0) 1 none 60).2.hits
        = (EnhancedCache.init (K := ℕ) ℕ 100).hits + 1 ∧
      1 ∈ dictKeys (EnhancedCache.get (EnhancedCache.set
          (EnhancedCache.init (K := ℕ) ℕ 100) 1 42 (some 60) 0) 1 none 60).2.cache) ∧
     (60 - 0 > (60:ℚ) →
      (EnhancedCache.get (EnhancedCache.set
          (EnhancedCache.init (K := ℕ) ℕ 100) 1 42 (some 60) 0) 1 none 60).1
        = (false, none) ∧
      (EnhancedCache.get (EnhancedCache.set
          (EnhancedCache.init (K := ℕ) ℕ 100) 1 42 (some 60) 0) 1 none 60).2.misses
        = (EnhancedCache.init (K := ℕ) ℕ 100).misses + 1 ∧
      1 ∉ dictKeys (EnhancedCache.get (EnhancedCache.set
          (EnhancedCache.init (K := ℕ) ℕ 100) 1 42 (some 60) 0) 1 none 60).2.cache ∧
      1 ∉ (EnhancedCache.get (EnhancedCache.set
          (EnhancedCache.init (K := ℕ) ℕ 100) 1 42 (some 60) 0) 1 none 60).2.access_order)) ∧
    (∀ (s' : EnhancedCache ℕ ℕ) (k' : ℕ) (d' : Option ℚ) (t' : ℚ),
      lookupEntry s'.cache k' = none →
      (EnhancedCache.get s' k' d' t').1 = (false, none) ∧
      (EnhancedCache.get s' k' d' t').2.misses = s'.misses + 1) :=
  cache_ttl_boundary (EnhancedCache.init ℕ 100) 1 42 60 0 60 none
    (by norm_num) (by simp [EnhancedCache.init])

/-- **C10.** Every entry written by `EnhancedCache.set` carries a stored
`ttl` field (the per-call `ttl` when truthy, otherwise the cache default),
and `EnhancedCache.get` judges freshness only against that stored `ttl`;
therefore the `default_ttl` argument passed to a later `get` has no effect
on the outcome for keys written by `set` — in particular the
`max_age=30` override that `get_order_details` passes through
`_check_cache` never shortens the 60-second TTL stored for a found order
(a probe 45 seconds after caching still hits). -/
theorem stored_ttl_governs :
    (∀ (K V : Type) (inst : DecidableEq K) (s : EnhancedCache K V) (key : K)
       (v : V) (ttl : Option ℚ) (now : ℚ),
       lookupEntry (EnhancedCache.set s key v ttl now).cache key
         = some ⟨v, some now, some (pyOrQ ttl s.default_ttl)⟩) ∧
    (∀ (K V : Type) (inst : DecidableEq K) (s : EnhancedCache K V) (key : K)
       (d1 d2 : Option ℚ) (now : ℚ),
       (∀ e, lookupEntry s.cache key = some e → e.ttl.isSome = true) →
       EnhancedCache.get s key d1 now = EnhancedCache.get s key d2 now) ∧
    (∀ (V : Type) (m : ManagerCaches String V) (oid : String) (v : V)
       (t0 t : ℚ),
       m.orders.default_ttl = 60 →
       0 ≤ t - t0 → t - t0 ≤ 60 →
       (check_cache (update_cache m ("order_" ++ oid) v "orders" none t0).2
          ("order_" ++ oid) "orders" (some 30) t).1 = (true, some v)) := by
  refine ⟨?_, ?_, ?_⟩
  · intro K V inst s key v ttl now
    exact lookup_set_self s key v ttl now
  · intro K V inst s key d1 d2 now hsome
    rcases hl : lookupEntry s.cache key with _ | e
    · rw [get_miss_absent d1 now hl, get_miss_absent d2 now hl]
    · have he := hsome e hl
      rcases ht : e.ttl with _ | x
      · rw [ht] at he; simp at he
      · simp only [EnhancedCache.get, hl, ht, Option.getD_some]
  · intro V m oid v t0 t hdef _h0 hle
    have hcf : cacheFor m "orders" = m.orders := by
      rw [cacheFor, if_neg (by decide), if_pos rfl]
    have hscf : ∀ c, cacheFor (setCacheFor m "orders" c) "orders" = c := by
      intro c
      rw [setCacheFor, if_neg (by decide), if_pos rfl,
        cacheFor, if_neg (by decide), if_pos rfl]
    rw [update_cache, check_cache]
    simp only [hcf, hscf]
    have hl : lookupEntry
        (EnhancedCache.set m.orders ("order_" ++ oid) v none t0).cache
        ("order_" ++ oid) = some ⟨v, some t0, some 60⟩ := by
      rw [lookup_set_self]
      simp [pyOrQ, hdef]
    have hfresh : ¬ (t - (Entry.timestamp
        (⟨v, some t0, some 60⟩ : Entry V)).getD 0
        > (Entry.ttl (⟨v, some t0, some 60⟩ : Entry V)).getD
            (pyOrQ (some 30)
              (EnhancedCache.set m.orders ("order_" ++ oid) v none t0).default_ttl)) := by
      simp only [Option.getD_some]
      exact not_lt.2 hle
    rw [get_hit (some 30) t hl hfresh]

/-- Witness for C10: the set-entry shape at a concrete input, the
`default_ttl`-independence of `get` on a fresh cache, and the concrete
order scenario (cached at `t0 = 0`, probed at `t = 45` with
`max_age = 30`, still a hit). -/
theorem stored_ttl_governs_witness :
    lookupEntry (EnhancedCache.set (EnhancedCache.init (K := ℕ) ℕ 100)
        1 5 none 0).cache 1
      = some ⟨5, some 0, some (pyOrQ none (EnhancedCache.init (K := ℕ) ℕ 100).default_ttl)⟩ ∧
    EnhancedCache.get (EnhancedCache.init (K := ℕ) ℕ 100) 1 (some 30) 45
      = EnhancedCache.get (EnhancedCache.init (K := ℕ) ℕ 100) 1 none 45 ∧
    (check_cache (update_cache (initCaches String ℕ) "order_X1" 7 "orders"
        none 0).2 "order_X1" "orders" (some 30) 45).1 = (true, some 7) := by
  refine ⟨?_, ?_, ?_⟩
  · exact stored_ttl_governs.1 ℕ ℕ inferInstance (EnhancedCache.init ℕ 100)
      1 5 none 0
  · exact stored_ttl_governs.2.1 ℕ ℕ inferInstance (EnhancedCache.init ℕ 100)
      1 (some 30) none 45
      (fun e h => by simp [EnhancedCache.init, lookupEntry] at h)
  · have h := stored_ttl_governs.2.2 ℕ (initCaches String ℕ) "X1" 7 0 45
      rfl (by norm_num) (by norm_num)
    simpa using h

/-! ## Manager-level lemmas and theorems -/

section ManagerLemmas

variable {K V : Type} [DecidableEq K]

lemma cacheFor_inventory (m : ManagerCaches K V) :
    cacheFor m "inventory" = m.inventory := by
  rw [cacheFor, if_pos rfl]

lemma cacheFor_orders (m : ManagerCaches K V) :
    cacheFor m "orders" = m.orders := by
  rw [cacheFor, if_neg (by decide), if_pos rfl]

lemma setCacheFor_inventory (m : ManagerCaches K V) (c : EnhancedCache K V) :
    setCacheFor m "inventory" c = { m with inventory := c } := by
  rw [setCacheFor, if_pos rfl]

lemma setCacheFor_orders (m : ManagerCaches K V) (c : EnhancedCache K V) :
    setCacheFor m "orders" c = { m with orders := c } := by
  rw [setCacheFor, if_neg (by decide), if_pos rfl]

lemma check_cache_miss (m : ManagerCaches K V) (ckey : K) (ct : String)
    (ma : Option ℚ) (now : ℚ)
    (h : lookupEntry (cacheFor m ct).cache ckey = none) :
    check_cache m ckey ct ma now
      = ((false, none),
         setCacheFor m ct
           { cacheFor m ct with misses := (cacheFor m ct).misses + 1 }) := by
  rw [check_cache, get_miss_absent ma now h]

end ManagerLemmas

/-- **C7.** For every execution in which the remote inventory fetch fails
persistently (sheet initialization returns no inventory sheet, or the
remote read raises on every attempt), `fetch_inventory` does not raise: it
returns the built-in static default catalog, in which each of the fixed
tag categories (`buds`, `local`, `carts`, `edibs`) and each of the fixed
strain categories (`indica`, `sativa`, `hybrid`) contains at least one
product, and it logs the degraded-mode warning (the returned flag). -/
theorem fetch_inventory_degraded (m : ManagerCaches String InvResult)
    (now : ℚ) (env : RemoteInventory)
    (henv : env = RemoteInventory.noSheet ∨ env = RemoteInventory.readRaises)
    (hmiss : (EnhancedCache.get m.inventory "inventory_data" none now).1.1
      = false) :
    (fetch_inventory m env now).1 = create_default_inventory ∧
    (fetch_inventory m env now).2.2 = true ∧
    (fetch_inventory m env now).1.1.buds ≠ [] ∧
    (fetch_inventory m env now).1.1.loc ≠ [] ∧
    (fetch_inventory m env now).1.1.carts ≠ [] ∧
    (fetch_inventory m env now).1.1.edibs ≠ [] ∧
    (fetch_inventory m env now).1.2.1.indica ≠ [] ∧
    (fetch_inventory m env now).1.2.1.sativa ≠ [] ∧
    (fetch_inventory m env now).1.2.1.hybrid ≠ [] := by
  rcases hg : EnhancedCache.get m.inventory "inventory_data" none now
    with ⟨⟨b, ov⟩, s2⟩
  rw [hg] at hmiss
  simp only at hmiss
  subst hmiss
  have hchk : check_cache m "inventory_data" "inventory" none now
      = ((false, ov), setCacheFor m "inventory" s2) := by
    rw [check_cache, cacheFor_inventory, hg]
  have hstep : (fetch_inventory m env now).1 = create_default_inventory ∧
      (fetch_inventory m env now).2.2 = true := by
    rcases henv with rfl | rfl <;> rcases ov with _ | x <;>
      simp [fetch_inventory, hchk]
  refine ⟨hstep.1, hstep.2, ?_⟩
  rw [hstep.1]
  refine ⟨?_, ?_, ?_, ?_, ?_, ?_, ?_⟩ <;> decide

/-- Witness for C7: with a fresh manager and a remote source that returns
no inventory sheet, `fetch_inventory` returns the default catalog with all
seven category buckets populated and the degraded flag set. -/
theorem fetch_inventory_degraded_witness :
    (fetch_inventory (initCaches String InvResult) RemoteInventory.noSheet 0).1
      = create_default_inventory ∧
    (fetch_inventory (initCaches String InvResult) RemoteInventory.noSheet 0).2.2
      = true ∧
    (fetch_inventory (initCaches String InvResult) RemoteInventory.noSheet 0).1.1.buds ≠ [] ∧
    (fetch_inventory (initCaches String InvResult) RemoteInventory.noSheet 0).1.1.loc ≠ [] ∧
    (fetch_inventory (initCaches String InvResult) RemoteInventory.noSheet 0).1.1.carts ≠ [] ∧
    (fetch_inventory (initCaches String InvResult) RemoteInventory.noSheet 0).1.1.edibs ≠ [] ∧
    (fetch_inventory (initCaches String InvResult) RemoteInventory.noSheet 0).1.2.1.indica ≠ [] ∧
    (fetch_inventory (initCaches String InvResult) RemoteInventory.noSheet 0).1.2.1.sativa ≠ [] ∧
    (fetch_inventory (initCaches String InvResult) RemoteInventory.noSheet 0).1.2.1.hybrid ≠ [] :=
  fetch_inventory_degraded (initCaches String InvResult) 0
    RemoteInventory.noSheet (Or.inl rfl) rfl

/-- **C8.** For every successful `add_order_to_sheet` call (one that
returns `True`), the entire orders cache is cleared — every key previously
resident in the orders cache, including any cached `order_<id>` entry, is
absent afterward, so a subsequent `get_order_details` for any order id is
a cache miss (its `_check_cache` probe returns `(false, None)`) requiring
a fresh remote read — while the inventory, sheets, and drive caches are
left unchanged. -/
theorem add_order_clears_orders {V : Type} (m : ManagerCaches String V)
    (sheetOk : Bool) (append : ℕ → Except PyExc Bool) (jit : ℕ → ℚ)
    (m' : ManagerCaches String V)
    (hrun : add_order_to_sheet m sheetOk append jit = (true, m')) :
    (∀ k, lookupEntry m'.orders.cache k = none) ∧
    m'.orders.access_order = [] ∧
    m'.inventory = m.inventory ∧
    m'.sheets = m.sheets ∧
    m'.drive = m.drive ∧
    (∀ (oid : String) (d : Option ℚ) (now : ℚ),
      (check_cache m' ("order_" ++ oid) "orders" d now).1 = (false, none)) := by
  rw [add_order_to_sheet] at hrun
  by_cases hs : sheetOk = false
  · rw [if_pos hs] at hrun
    simp at hrun
  · rw [if_neg hs] at hrun
    cases hres : (RetryableOperation.run ⟨3, 1, retryOnNetwork, true⟩
        append jit).1 with
    | raise e => rw [hres] at hrun; simp at hrun
    | ok b =>
        rw [hres] at hrun
        dsimp only at hrun
        rw [Prod.mk.injEq] at hrun
        obtain ⟨hb, hm'⟩ := hrun
        subst hb
        rw [if_pos rfl] at hm'
        subst hm'
        have hords : ({ m with orders := EnhancedCache.clear m.orders none }
            : ManagerCaches String V).orders.cache = [] := rfl
        refine ⟨fun k => by rw [hords]; rfl, rfl, rfl, rfl, rfl, ?_⟩
        intro oid d now
        have hl : lookupEntry (cacheFor
            ({ m with orders := EnhancedCache.clear m.orders none })
            "orders").cache ("order_" ++ oid) = none := by
          rw [cacheFor_orders]; rfl
        rw [check_cache_miss _ _ _ _ _ hl]

/-- Witness for C8: from a fresh manager, a first-attempt successful
append yields `True` and the post-state has an empty orders cache, intact
sibling caches, and missing `order_<id>` probes. -/
theorem add_order_clears_orders_witness :
    (∀ k, lookupEntry (add_order_to_sheet (initCaches String ℕ) true
        (fun _ => Except.ok true) (fun _ => (0:ℚ))).2.orders.cache k = none) ∧
    (add_order_to_sheet (initCaches String ℕ) true
        (fun _ => Except.ok true) (fun _ => (0:ℚ))).2.orders.access_order = [] ∧
    (add_order_to_sheet (initCaches String ℕ) true
        (fun _ => Except.ok true) (fun _ => (0:ℚ))).2.inventory
      = (initCaches String ℕ).inventory ∧
    (add_order_to_sheet (initCaches String ℕ) true
        (fun _ => Except.ok true) (fun _ => (0:ℚ))).2.sheets
      = (initCaches String ℕ).sheets ∧
    (add_order_to_sheet (initCaches String ℕ) true
        (fun _ => Except.ok true) (fun _ => (0:ℚ))).2.drive
      = (initCaches String ℕ).drive ∧
    (∀ (oid : String) (d : Option ℚ) (now : ℚ),
      (check_cache (add_order_to_sheet (initCaches String ℕ) true
          (fun _ => Except.ok true) (fun _ => (0:ℚ))).2
        ("order_" ++ oid) "orders" d now).1 = (false, none)) := by
  have hrun0 : (RetryableOperation.run ⟨3, 1, retryOnNetwork, true⟩
      (fun _ => Except.ok true) (fun _ => (0:ℚ))).1 = .ok true := by
    rw [RetryableOperation.run, runGo]
  have hadd : add_order_to_sheet (initCaches String ℕ) true
      (fun _ => Except.ok true) (fun _ => (0:ℚ))
      = (true, { initCaches String ℕ with
          orders := EnhancedCache.clear (initCaches String ℕ).orders none }) := by
    rw [add_order_to_sheet, if_neg (by decide), hrun0]
    rfl
  exact add_order_clears_orders (initCaches String ℕ) true
    (fun _ => Except.ok true) (fun _ => (0:ℚ)) _ (by rw [hadd])

/-- Housekeeping is a no-op while at most 20 classes are tracked. -/
lemma cleanupTimes_of_le {d : List (String × ℚ)} (h : d.length ≤ 20) :
    cleanupTimes d = d := by
  rw [cleanupTimes, if_neg (by omega)]

/-- Every configured minimum wait is positive. -/
lemma min_wait_times_pos (api : String) : 0 < min_wait_times api := by
  rw [min_wait_times]
  split_ifs <;> norm_num

/-- **C9.** For every operation class: the first `_rate_limit_request`
call for a class with no recorded prior request returns without sleeping
(given that the wall clock, an epoch time, is at least the minimum
interval); and for two successive calls with the same class whose
configured minimum interval is `m`, the second call completes (and records
its timestamp) no earlier than `0.9 * m` after the first call returned,
for every jitter draw in `[-0.1, 0.1]`, because the jittered wait is
bounded below by 90% of the computed wait and by the `0.1` floor. -/
theorem rate_limit_spacing :
    (∀ (st : List (String × ℚ)) (api : String) (now u : ℚ),
      lookupEntry st api = none → min_wait_times api ≤ now →
      (rate_limit_request st api now u).1 = 0) ∧
    (∀ (st : List (String × ℚ)) (api : String) (now1 u1 now2 u2 : ℚ),
      st.length ≤ 19 → -1/10 ≤ u2 → u2 ≤ 1/10 →
      now1 + (rate_limit_request st api now1 u1).1 ≤ now2 →
      now1 + (rate_limit_request st api now1 u1).1
          + (9/10) * min_wait_times api
        ≤ now2 + (rate_limit_request
            (rate_limit_request st api now1 u1).2 api now2 u2).1) := by
  constructor
  · intro st api now u hnone hge
    show rl_slept st api now u = 0
    rw [rl_slept]
    simp only [hnone, Option.getD_none]
    rw [if_neg (by linarith)]
  · intro st api now1 u1 now2 u2 hlen hu2a hu2b hseq
    have hm0 : 0 < min_wait_times api := min_wait_times_pos api
    have hlook : lookupEntry (rate_limit_request st api now1 u1).2 api
        = some (now1 + rl_slept st api now1 u1) := by
      show lookupEntry
        (cleanupTimes (dictInsert st api (now1 + rl_slept st api now1 u1)))
        api = _
      rw [cleanupTimes_of_le, lookupEntry_dictInsert_self]
      rw [length_dictInsert]
      split_ifs <;> omega
    have hseq' : now1 + rl_slept st api now1 u1 ≤ now2 := hseq
    show now1 + rl_slept st api now1 u1 + 9/10 * min_wait_times api
      ≤ now2 + rl_slept (rate_limit_request st api now1 u1).2 api now2 u2
    set s1 := rl_slept st api now1 u1 with hs1
    rw [rl_slept, hlook]
    simp only [Option.getD_some]
    set t1 := now1 + s1 with ht1
    by_cases hlt : now2 - t1 < min_wait_times api
    · rw [if_pos hlt]
      set w := min_wait_times api - (now2 - t1) + 1/10 with hw
      have hwpos : 0 < w := by rw [hw]; linarith
      have hkey : 0 ≤ w * (1/10 + u2) := by
        apply mul_nonneg hwpos.le
        linarith
      have hprod : w * (1/10 + u2) = (w + u2 * w) - w * (9/10) := by ring
      have h9 : w * (9/10) ≤ w + u2 * w := by linarith [hprod ▸ hkey]
      have hmax : w + u2 * w ≤ max (1/10) (w + u2 * w) := le_max_right _ _
      have hexpand : w * (9/10)
          = 9/10 * min_wait_times api - 9/10 * (now2 - t1) + 9/100 := by
        rw [hw]; ring
      linarith
    · rw [if_neg hlt]
      push_neg at hlt
      linarith

/-- Witness for C9: on a fresh throttle state, a `sheets_write` call at
time 10 sleeps 0; a second call at time 10.5 is pushed past
`10 + 0.9 * 1.2`. -/
theorem rate_limit_spacing_witness :
    (rate_limit_request [] "sheets_write" 10 0).1 = 0 ∧
    10 + (rate_limit_request [] "sheets_write" 10 0).1
        + (9/10) * min_wait_times "sheets_write"
      ≤ 21/2 + (rate_limit_request
          (rate_limit_request [] "sheets_write" 10 0).2 "sheets_write"
          (21/2) (1/10)).1 := by
  have h1 := rate_limit_spacing.1 [] "sheets_write" 10 0 rfl
    (by rw [min_wait_times, if_neg (by decide), if_neg (by decide),
          if_pos rfl]
        norm_num)
  refine ⟨h1, ?_⟩
  exact rate_limit_spacing.2 [] "sheets_write" 10 0 (21/2) (1/10)
    (by norm_num) (by norm_num) (by norm_num) (by rw [h1]; norm_num)

/-! ## Invariant preservation for the cache (C5 / C6) -/

section InvariantLemmas

variable {K V : Type} [DecidableEq K]

lemma touchUpd_self (touch : K → Option ℕ) (k : K) (i : ℕ) :
    touchUpd touch k i k = some i := by
  rw [touchUpd, if_pos rfl]

lemma touchUpd_ne (touch : K → Option ℕ) {k j : K} (i : ℕ) (h : j ≠ k) :
    touchUpd touch k i j = touch j := by
  rw [touchUpd, if_neg h]

lemma touchN_upd_self (touch : K → Option ℕ) (k : K) (i : ℕ) :
    touchN (touchUpd touch k i) k = i := by
  rw [touchN, touchUpd_self]
  rfl

lemma touchN_upd_ne (touch : K → Option ℕ) {k j : K} (i : ℕ) (h : j ≠ k) :
    touchN (touchUpd touch k i) j = touchN touch j := by
  rw [touchN, touchUpd_ne touch i h, touchN]

lemma cacheInv_of_fields {s s' : EnhancedCache K V} (h : CacheInv s)
    (hc : s'.cache = s.cache) (ha : s'.access_order = s.access_order)
    (hm : s'.max_items = s.max_items) : CacheInv s' := by
  refine ⟨?_, ?_, ?_, ?_, ?_⟩
  · rw [hc, hm]; exact h.size_le
  · rw [hc]; exact h.keys_nodup
  · rw [ha]; exact h.ao_nodup
  · intro k; rw [hc, ha]; exact h.mem_iff k
  · rw [hc, ha]; exact h.len_eq

lemma touchInv_of_fields {s s' : EnhancedCache K V} {touch : K → Option ℕ}
    {n n' : ℕ} (h : TouchInv s touch n)
    (ha : s'.access_order = s.access_order) (hn : n ≤ n') :
    TouchInv s' touch n' := by
  refine ⟨?_, ?_, ?_⟩
  · rw [ha]; exact h.defined
  · rw [ha]; intro k hk; exact lt_of_lt_of_le (h.bounded k hk) hn
  · rw [ha]; exact h.sorted

lemma dequeAppend_eq_append {m : ℕ} (d : List K) (k : K)
    (h : d.length < m) : EnhancedCache.dequeAppend m d k = d ++ [k] := by
  rw [EnhancedCache.dequeAppend]
  have hz : (d ++ [k]).length - m = 0 := by simp; omega
  simp only [hz, List.drop_zero]

/-- Refreshing the recency position of a resident key `k` at trace index
`n`: the recency list keeps the same members, stays duplicate-free and of
the same length, and stays sorted by last touch with `k` now newest. -/
lemma recency_refresh {l : List K} {touch : K → Option ℕ} {n : ℕ} {k : K}
    (hN : l.Nodup) (hk : k ∈ l)
    (hdef : ∀ j ∈ l, (touch j).isSome = true)
    (hbnd : ∀ j ∈ l, touchN touch j < n)
    (hsort : l.Pairwise (fun a b => touchN touch a < touchN touch b)) :
    (l.erase k ++ [k]).Nodup ∧
    (∀ j, j ∈ l.erase k ++ [k] ↔ j ∈ l) ∧
    (l.erase k ++ [k]).length = l.length ∧
    (∀ j ∈ l.erase k ++ [k], (touchUpd touch k n j).isSome = true) ∧
    (∀ j ∈ l.erase k ++ [k], touchN (touchUpd touch k n) j < n + 1) ∧
    (l.erase k ++ [k]).Pairwise
      (fun a b => touchN (touchUpd touch k n) a
        < touchN (touchUpd touch k n) b) := by
  have hne : ∀ j ∈ l.erase k, j ≠ k := by
    intro j hj
    exact ((List.Nodup.mem_erase_iff hN).1 hj).1
  refine ⟨?_, ?_, ?_, ?_, ?_, ?_⟩
  · rw [List.nodup_append]
    exact ⟨List.Nodup.erase k hN, List.nodup_singleton k,
      fun j hj hj2 => hne j hj (by simpa using hj2)⟩
  · intro j
    rw [List.mem_append, List.mem_singleton]
    constructor
    · rintro (hj | rfl)
      · exact List.mem_of_mem_erase hj
      · exact hk
    · intro hj
      by_cases hjk : j = k
      · exact Or.inr hjk
      · exact Or.inl ((List.Nodup.mem_erase_iff hN).2 ⟨hjk, hj⟩)
  · have hpos : 0 < l.length := List.length_pos.2 (List.ne_nil_of_mem hk)
    rw [List.length_append, List.length_singleton,
      List.length_erase_of_mem hk]
    omega
  · intro j hj
    rcases List.mem_append.1 hj with hj | hj
    · rw [touchUpd_ne touch n (hne j hj)]
      exact hdef j (List.mem_of_mem_erase hj)
    · rw [List.mem_singleton] at hj
      subst hj
      rw [touchUpd_self]
      rfl
  · intro j hj
    rcases List.mem_append.1 hj with hj | hj
    · rw [touchN_upd_ne touch n (hne j hj)]
      exact lt_trans (hbnd j (List.mem_of_mem_erase hj)) (by omega)
    · rw [List.mem_singleton] at hj
      subst hj
      rw [touchN_upd_self]
      omega
  · rw [List.pairwise_append]
    refine ⟨?_, List.pairwise_singleton _ _, ?_⟩
    · refine List.Pairwise.imp_of_mem ?_
        (List.Pairwise.sublist (List.erase_sublist k l) hsort)
      intro a b ha hb hab
      rwa [touchN_upd_ne touch n (hne a ha), touchN_upd_ne touch n (hne b hb)]
    · intro a ha b hb
      rw [List.mem_singleton] at hb
      subst hb
      rw [touchN_upd_ne touch n (hne a ha), touchN_upd_self]
      exact hbnd a (List.mem_of_mem_erase ha)

/-- Appending a fresh key `k` at trace index `n`: members grow by `k`,
duplicate-freeness and sortedness by last touch are preserved. -/
lemma recency_append {l : List K} {touch : K → Option ℕ} {n : ℕ} {k : K}
    (hN : l.Nodup) (hk : k ∉ l)
    (hdef : ∀ j ∈ l, (touch j).isSome = true)
    (hbnd : ∀ j ∈ l, touchN touch j < n)
    (hsort : l.Pairwise (fun a b => touchN touch a < touchN touch b)) :
    (l ++ [k]).Nodup ∧
    (∀ j, j ∈ l ++ [k] ↔ j ∈ l ∨ j = k) ∧
    (l ++ [k]).length = l.length + 1 ∧
    (∀ j ∈ l ++ [k], (touchUpd touch k n j).isSome = true) ∧
    (∀ j ∈ l ++ [k], touchN (touchUpd touch k n) j < n + 1) ∧
    (l ++ [k]).Pairwise
      (fun a b => touchN (touchUpd touch k n) a
        < touchN (touchUpd touch k n) b) := by
  have hne : ∀ j ∈ l, j ≠ k := fun j hj hjk => hk (hjk ▸ hj)
  refine ⟨?_, ?_, ?_, ?_, ?_, ?_⟩
  · rw [List.nodup_append]
    exact ⟨hN, List.nodup_singleton k,
      fun j hj hj2 => hne j hj (by simpa using hj2)⟩
  · intro j
    rw [List.mem_append, List.mem_singleton]
  · simp
  · intro j hj
    rcases List.mem_append.1 hj with hj | hj
    · rw [touchUpd_ne touch n (hne j hj)]
      exact hdef j hj
    · rw [List.mem_singleton] at hj
      subst hj
      rw [touchUpd_self]
      rfl
  · intro j hj
    rcases List.mem_append.1 hj with hj | hj
    · rw [touchN_upd_ne touch n (hne j hj)]
      exact lt_trans (hbnd j hj) (by omega)
    · rw [List.mem_singleton] at hj
      subst hj
      rw [touchN_upd_self]
      omega
  · rw [List.pairwise_append]
    refine ⟨?_, List.pairwise_singleton _ _, ?_⟩
    · refine List.Pairwise.imp_of_mem ?_ hsort
      intro a b ha hb hab
      rwa [touchN_upd_ne touch n (hne a ha), touchN_upd_ne touch n (hne b hb)]
    · intro a ha b hb
      rw [List.mem_singleton] at hb
      subst hb
      rw [touchN_upd_ne touch n (hne a ha), touchN_upd_self]
      exact hbnd a ha

lemma update_access_order_ao_of_mem {s : EnhancedCache K V} {k : K}
    (hlen : s.access_order.length ≤ s.max_items) (hk : k ∈ s.access_order) :
    (EnhancedCache.update_access_order s k).access_order
      = s.access_order.erase k ++ [k] := by
  simp only [EnhancedCache.update_access_order, if_pos hk]
  apply dequeAppend_eq_append
  have hpos : 0 < s.access_order.length :=
    List.length_pos.2 (List.ne_nil_of_mem hk)
  rw [List.length_erase_of_mem hk]
  omega

lemma update_access_order_ao_of_not_mem {s : EnhancedCache K V} {k : K}
    (hroom : s.access_order.length < s.max_items)
    (hk : k ∉ s.access_order) :
    (EnhancedCache.update_access_order s k).access_order
      = s.access_order ++ [k] := by
  simp only [EnhancedCache.update_access_order, if_neg hk]
  exact dequeAppend_eq_append _ _ hroom

lemma mem_dictKeys_of_mem_pair {c : List (K × V)} {p : K × V}
    (hp : p ∈ c) : p.1 ∈ dictKeys c :=
  List.mem_map_of_mem Prod.fst hp

lemma dictErase_eq_self_of_not_mem {c : List (K × V)} {k : K}
    (h : k ∉ dictKeys c) : dictErase c k = c := by
  rw [dictErase, List.filter_eq_self]
  intro p hp
  simp only [decide_eq_true_eq]
  exact fun he => h (he ▸ mem_dictKeys_of_mem_pair hp)

lemma length_dictErase_of_mem {c : List (K × V)} {k : K}
    (hnd : (dictKeys c).Nodup) (hm : k ∈ dictKeys c) :
    (dictErase c k).length = c.length - 1 := by
  induction c with
  | nil => simp [dictKeys] at hm
  | cons p rest ih =>
      obtain ⟨k', e'⟩ := p
      rw [dictKeys_cons] at hnd hm
      by_cases hk : k' = k
      · subst hk
        have hnotin : k' ∉ dictKeys rest := (List.nodup_cons.1 hnd).1
        rw [dictErase, List.filter_cons]
        simp only [decide_eq_true_eq]
        rw [if_neg (by simp)]
        have : dictErase rest k' = rest := dictErase_eq_self_of_not_mem hnotin
        rw [dictErase] at this
        rw [this]
        simp
      · rcases List.mem_cons.1 hm with h | h
        · exact absurd h.symm hk
        · rw [dictErase, List.filter_cons]
          simp only [decide_eq_true_eq]
          rw [if_pos (by simpa using hk)]
          have ihr := ih (List.nodup_cons.1 hnd).2 h
          rw [dictErase] at ihr
          simp only [List.length_cons, ihr]
          have hpos : 0 < rest.length := by
            have := (mem_dictKeys_iff_lookup rest k).1 h
            cases rest with
            | nil => simp [lookupEntry] at this
            | cons q t => simp
          omega

lemma set_eq_evict {s : EnhancedCache K V} {k : K} (v : V) (ttl : Option ℚ)
    (now : ℚ) (hge : s.cache.length ≥ s.max_items)
    (hnew : k ∉ dictKeys s.cache) :
    EnhancedCache.set s k v ttl now =
      EnhancedCache.update_access_order
        { EnhancedCache.evict_lru s with
          cache := dictInsert (EnhancedCache.evict_lru s).cache k (Entry.mk v
            (some now)
            (some (pyOrQ ttl (EnhancedCache.evict_lru s).default_ttl))) } k := by
  simp only [EnhancedCache.set, if_pos (And.intro hge hnew)]

lemma set_eq_noevict {s : EnhancedCache K V} {k : K} (v : V)
    (ttl : Option ℚ) (now : ℚ)
    (hcond : ¬ (s.cache.length ≥ s.max_items ∧ k ∉ dictKeys s.cache)) :
    EnhancedCache.set s k v ttl now =
      EnhancedCache.update_access_order
        { s with cache := dictInsert s.cache k (Entry.mk v (some now)
            (some (pyOrQ ttl s.default_ttl))) } k := by
  simp only [EnhancedCache.set, if_neg hcond]

/-- `set` preserves the cache invariant and the recency invariant, the
touched key being `k` at trace index `n` (capacity at least 1). -/
lemma set_preserves {s : EnhancedCache K V} {touch : K → Option ℕ} {n : ℕ}
    (k : K) (v : V) (ttl : Option ℚ) (now : ℚ)
    (hmax : 1 ≤ s.max_items) (hC : CacheInv s) (hT : TouchInv s touch n) :
    (EnhancedCache.set s k v ttl now).max_items = s.max_items ∧
    CacheInv (EnhancedCache.set s k v ttl now) ∧
    TouchInv (EnhancedCache.set s k v ttl now) (touchUpd touch k n)
      (n + 1) := by
  refine ⟨set_max_items s k v ttl now, ?_⟩
  by_cases hcond : s.cache.length ≥ s.max_items ∧ k ∉ dictKeys s.cache
  · -- eviction path: cache full and key new
    obtain ⟨hge, hnew⟩ := hcond
    rw [set_eq_evict v ttl now hge hnew]
    generalize (⟨v, some now,
      some (pyOrQ ttl (EnhancedCache.evict_lru s).default_ttl)⟩ : Entry V) = E
    have hlen : s.cache.length = s.max_items := le_antisymm hC.size_le hge
    have haolen : s.access_order.length = s.max_items := by
      rw [hC.len_eq, hlen]
    obtain ⟨lru, rest, hao⟩ : ∃ lru rest, s.access_order = lru :: rest := by
      cases hx : s.access_order with
      | nil => rw [hx] at haolen; simp at haolen; omega
      | cons a t => exact ⟨a, t, rfl⟩
    have hlruao : lru ∈ s.access_order := by
      rw [hao]; exact List.mem_cons_self _ _
    have hlruk : lru ∈ dictKeys s.cache := (hC.mem_iff lru).2 hlruao
    have hev : EnhancedCache.evict_lru s = EnhancedCache.remove_entry s lru := by
      simp only [EnhancedCache.evict_lru, hao]
    have hevc : (EnhancedCache.evict_lru s).cache = dictErase s.cache lru := by
      rw [hev]; simp only [EnhancedCache.remove_entry, if_pos hlruk]
    have heva : (EnhancedCache.evict_lru s).access_order = rest := by
      rw [hev]; simp only [EnhancedCache.remove_entry, if_pos hlruao]
      rw [hao, List.erase_cons_head]
    have hevm : (EnhancedCache.evict_lru s).max_items = s.max_items :=
      evict_lru_max_items s
    have hndao : s.access_order.Nodup := hC.ao_nodup
    rw [hao] at hndao
    have hrest_nd : rest.Nodup := (List.nodup_cons.1 hndao).2
    have hlru_rest : lru ∉ rest := (List.nodup_cons.1 hndao).1
    have hrest_len : rest.length = s.max_items - 1 := by
      have hx : s.access_order.length = rest.length + 1 := by rw [hao]; simp
      omega
    have hknotao : k ∉ s.access_order := fun h => hnew ((hC.mem_iff k).2 h)
    have hkrest : k ∉ rest := fun h =>
      hknotao (by rw [hao]; exact List.mem_cons_of_mem _ h)
    have hkeys1_nd : (dictKeys (dictErase s.cache lru)).Nodup := by
      rw [dictKeys_dictErase]
      exact List.Nodup.filter _ hC.keys_nodup
    have hlen1 : (dictErase s.cache lru).length = s.max_items - 1 := by
      rw [length_dictErase_of_mem hC.keys_nodup hlruk, hlen]
    have hknot1 : k ∉ dictKeys (dictErase s.cache lru) := fun h =>
      hnew (mem_dictKeys_dictErase.1 h).1
    have hins : dictInsert (EnhancedCache.evict_lru s).cache k E
        = dictErase s.cache lru ++ [(k, E)] := by
      rw [hevc, dictInsert, if_neg hknot1]
    have hinskeys : dictKeys (dictInsert (EnhancedCache.evict_lru s).cache k E)
        = dictKeys (dictErase s.cache lru) ++ [k] := by
      rw [hins]
      simp [dictKeys]
    have hinslen : (dictInsert (EnhancedCache.evict_lru s).cache k E).length
        = s.max_items := by
      rw [hins, List.length_append, List.length_singleton, hlen1]
      omega
    -- the recency list after the update
    have hrestdef : ∀ j ∈ rest, (touch j).isSome = true := fun j hj =>
      hT.defined j (by rw [hao]; exact List.mem_cons_of_mem _ hj)
    have hrestbnd : ∀ j ∈ rest, touchN touch j < n := fun j hj =>
      hT.bounded j (by rw [hao]; exact List.mem_cons_of_mem _ hj)
    have hrestsort : rest.Pairwise
        (fun a b => touchN touch a < touchN touch b) := by
      have := hT.sorted
      rw [hao] at this
      exact (List.pairwise_cons.1 this).2
    obtain ⟨hnd', hmem', hlen', hdef', hbnd', hsort'⟩ :=
      recency_append hrest_nd hkrest hrestdef hrestbnd hrestsort
    have ha' : (EnhancedCache.update_access_order
        { EnhancedCache.evict_lru s with
          cache := dictInsert (EnhancedCache.evict_lru s).cache k E } k).access_order
        = rest ++ [k] := by
      have hroom2 : ({ EnhancedCache.evict_lru s with
          cache := dictInsert (EnhancedCache.evict_lru s).cache k E }
            : EnhancedCache K V).access_order.length
          < ({ EnhancedCache.evict_lru s with
          cache := dictInsert (EnhancedCache.evict_lru s).cache k E }
            : EnhancedCache K V).max_items := by
        show (EnhancedCache.evict_lru s).access_order.length
          < (EnhancedCache.evict_lru s).max_items
        rw [heva, hevm, hrest_len]
        omega
      have hknot2 : k ∉ ({ EnhancedCache.evict_lru s with
          cache := dictInsert (EnhancedCache.evict_lru s).cache k E }
            : EnhancedCache K V).access_order := by
        show k ∉ (EnhancedCache.evict_lru s).access_order
        rw [heva]; exact hkrest
      rw [update_access_order_ao_of_not_mem hroom2 hknot2]
      show (EnhancedCache.evict_lru s).access_order ++ [k] = rest ++ [k]
      rw [heva]
    refine ⟨⟨?_, ?_, ?_, ?_, ?_⟩, ?_, ?_, ?_⟩
    · show (dictInsert (EnhancedCache.evict_lru s).cache k E).length
        ≤ (EnhancedCache.evict_lru s).max_items
      rw [hinslen, hevm]
    · show (dictKeys (dictInsert (EnhancedCache.evict_lru s).cache k E)).Nodup
      rw [hinskeys, List.nodup_append]
      exact ⟨hkeys1_nd, List.nodup_singleton k,
        fun j hj hj2 => hknot1 ((List.mem_singleton.1 hj2) ▸ hj)⟩
    · rw [ha']; exact hnd'
    · intro j
      show j ∈ dictKeys (dictInsert (EnhancedCache.evict_lru s).cache k E)
        ↔ j ∈ (EnhancedCache.update_access_order _ k).access_order
      rw [hinskeys, ha', List.mem_append, List.mem_append,
        List.mem_singleton, mem_dictKeys_dictErase]
      constructor
      · rintro (⟨hjk, hjne⟩ | rfl)
        · left
          have : j ∈ s.access_order := (hC.mem_iff j).1 hjk
          rw [hao] at this
          exact (List.mem_cons.1 this).resolve_left hjne
        · right; rfl
      · rintro (hj | rfl)
        · left
          refine ⟨(hC.mem_iff j).2 (by rw [hao]; exact List.mem_cons_of_mem _ hj), ?_⟩
          intro hje
          exact hlru_rest (hje ▸ hj)
        · right; rfl
    · show (EnhancedCache.update_access_order _ k).access_order.length
        = (dictInsert (EnhancedCache.evict_lru s).cache k E).length
      rw [ha', hinslen, List.length_append, List.length_singleton, hrest_len]
      omega
    · intro j hj
      rw [ha'] at hj
      exact hdef' j hj
    · intro j hj
      rw [ha'] at hj
      exact hbnd' j hj
    · show ((EnhancedCache.update_access_order _ k).access_order).Pairwise _
      rw [ha']
      exact hsort'
  · -- no eviction
    rw [set_eq_noevict v ttl now hcond]
    generalize (⟨v, some now, some (pyOrQ ttl s.default_ttl)⟩ : Entry V) = E
    by_cases hk : k ∈ dictKeys s.cache
    · -- overwrite of a resident key
      have hkao : k ∈ s.access_order := (hC.mem_iff k).1 hk
      have hlenao : s.access_order.length ≤ s.max_items := by
        rw [hC.len_eq]; exact hC.size_le
      obtain ⟨hnd', hmem', hlen', hdef', hbnd', hsort'⟩ :=
        recency_refresh hC.ao_nodup hkao hT.defined hT.bounded hT.sorted
      have ha' : (EnhancedCache.update_access_order
          { s with cache := dictInsert s.cache k E } k).access_order
          = s.access_order.erase k ++ [k] := by
        have h1 : ({ s with cache := dictInsert s.cache k E }
            : EnhancedCache K V).access_order.length
            ≤ ({ s with cache := dictInsert s.cache k E }
            : EnhancedCache K V).max_items := hlenao
        have h2 : k ∈ ({ s with cache := dictInsert s.cache k E }
            : EnhancedCache K V).access_order := hkao
        exact update_access_order_ao_of_mem h1 h2
      refine ⟨⟨?_, ?_, ?_, ?_, ?_⟩, ?_, ?_, ?_⟩
      · show (dictInsert s.cache k E).length ≤ s.max_items
        rw [length_dictInsert, if_pos hk]
        exact hC.size_le
      · show (dictKeys (dictInsert s.cache k E)).Nodup
        rw [dictKeys_dictInsert, if_pos hk]
        exact hC.keys_nodup
      · rw [ha']; exact hnd'
      · intro j
        show j ∈ dictKeys (dictInsert s.cache k E)
          ↔ j ∈ (EnhancedCache.update_access_order _ k).access_order
        rw [dictKeys_dictInsert, if_pos hk, ha']
        exact (hC.mem_iff j).trans (hmem' j).symm
      · show (EnhancedCache.update_access_order _ k).access_order.length
          = (dictInsert s.cache k E).length
        rw [ha', length_dictInsert, if_pos hk, hlen']
        exact hC.len_eq
      · intro j hj
        rw [ha'] at hj
        exact hdef' j hj
      · intro j hj
        rw [ha'] at hj
        exact hbnd' j hj
      · show ((EnhancedCache.update_access_order _ k).access_order).Pairwise _
        rw [ha']
        exact hsort'
    · -- fresh key with room
      have hroom : s.cache.length < s.max_items :=
        lt_of_not_ge (fun hge => hcond ⟨hge, hk⟩)
      have hknotao : k ∉ s.access_order := fun h => hk ((hC.mem_iff k).2 h)
      have haoroom : s.access_order.length < s.max_items := by
        rw [hC.len_eq]; exact hroom
      obtain ⟨hnd', hmem', hlen', hdef', hbnd', hsort'⟩ :=
        recency_append hC.ao_nodup hknotao hT.defined hT.bounded hT.sorted
      have ha' : (EnhancedCache.update_access_order
          { s with cache := dictInsert s.cache k E } k).access_order
          = s.access_order ++ [k] := by
        have h1 : ({ s with cache := dictInsert s.cache k E }
            : EnhancedCache K V).access_order.length
            < ({ s with cache := dictInsert s.cache k E }
            : EnhancedCache K V).max_items := haoroom
        have h2 : k ∉ ({ s with cache := dictInsert s.cache k E }
            : EnhancedCache K V).access_order := hknotao
        exact update_access_order_ao_of_not_mem h1 h2
      have hinskeys : dictKeys (dictInsert s.cache k E)
          = dictKeys s.cache ++ [k] := by
        rw [dictKeys_dictInsert, if_neg hk]
      refine ⟨⟨?_, ?_, ?_, ?_, ?_⟩, ?_, ?_, ?_⟩
      · show (dictInsert s.cache k E).length ≤ s.max_items
        rw [length_dictInsert, if_neg hk]
        omega
      · show (dictKeys (dictInsert s.cache k E)).Nodup
        rw [hinskeys, List.nodup_append]
        exact ⟨hC.keys_nodup, List.nodup_singleton k,
          fun j hj hj2 => hk ((List.mem_singleton.1 hj2) ▸ hj)⟩
      · rw [ha']; exact hnd'
      · intro j
        show j ∈ dictKeys (dictInsert s.cache k E)
          ↔ j ∈ (EnhancedCache.update_access_order _ k).access_order
        rw [hinskeys, ha', List.mem_append, List.mem_singleton, hmem' j]
        constructor
        · rintro (hj | rfl)
          · exact Or.inl ((hC.mem_iff j).1 hj)
          · exact Or.inr rfl
        · rintro (hj | rfl)
          · exact Or.inl ((hC.mem_iff j).2 hj)
          · exact Or.inr rfl
      · show (EnhancedCache.update_access_order _ k).access_order.length
          = (dictInsert s.cache k E).length
        rw [ha', length_dictInsert, if_neg hk, hlen']
        rw [hC.len_eq]
      · intro j hj
        rw [ha'] at hj
        exact hdef' j hj
      · intro j hj
        rw [ha'] at hj
        exact hbnd' j hj
      · show ((EnhancedCache.update_access_order _ k).access_order).Pairwise _
        rw [ha']
        exact hsort'

/-- `_remove_entry` of a resident key preserves both invariants. -/
lemma remove_entry_preserves {s : EnhancedCache K V} {touch : K → Option ℕ}
    {n : ℕ} (k : K) (hC : CacheInv s) (hT : TouchInv s touch n)
    (hkmem : k ∈ dictKeys s.cache) :
    (EnhancedCache.remove_entry s k).max_items = s.max_items ∧
    CacheInv (EnhancedCache.remove_entry s k) ∧
    TouchInv (EnhancedCache.remove_entry s k) touch (n + 1) := by
  have hkao : k ∈ s.access_order := (hC.mem_iff k).1 hkmem
  have hc' : (EnhancedCache.remove_entry s k).cache = dictErase s.cache k := by
    simp only [EnhancedCache.remove_entry, if_pos hkmem]
  have ha' : (EnhancedCache.remove_entry s k).access_order
      = s.access_order.erase k := by
    simp only [EnhancedCache.remove_entry, if_pos hkao]
  have hm' : (EnhancedCache.remove_entry s k).max_items = s.max_items := rfl
  refine ⟨hm', ⟨?_, ?_, ?_, ?_, ?_⟩, ?_, ?_, ?_⟩
  · rw [hc', hm', length_dictErase_of_mem hC.keys_nodup hkmem]
    have := hC.size_le
    omega
  · rw [hc', dictKeys_dictErase]
    exact List.Nodup.filter _ hC.keys_nodup
  · rw [ha']
    exact List.Nodup.erase k hC.ao_nodup
  · intro j
    rw [hc', ha', mem_dictKeys_dictErase,
      List.Nodup.mem_erase_iff hC.ao_nodup]
    rw [hC.mem_iff j]
    exact and_comm
  · rw [hc', ha', length_dictErase_of_mem hC.keys_nodup hkmem,
      List.length_erase_of_mem hkao, hC.len_eq]
  · intro j hj
    rw [ha'] at hj
    exact hT.defined j (List.mem_of_mem_erase hj)
  · intro j hj
    rw [ha'] at hj
    exact lt_trans (hT.bounded j (List.mem_of_mem_erase hj)) (by omega)
  · show ((EnhancedCache.remove_entry s k).access_order).Pairwise _
    rw [ha']
    exact List.Pairwise.sublist (List.erase_sublist k _) hT.sorted

/-- One instrumented step preserves capacity, the cache invariant and the
recency invariant (capacity at least 1). -/
lemma stepInstr_preserves {s : EnhancedCache K V} {touch : K → Option ℕ}
    {n : ℕ} (op : CacheOp K V) (hmax : 1 ≤ s.max_items)
    (hC : CacheInv s) (hT : TouchInv s touch n) :
    (stepInstr (s, touch) (n, op)).1.max_items = s.max_items ∧
    CacheInv (stepInstr (s, touch) (n, op)).1 ∧
    TouchInv (stepInstr (s, touch) (n, op)).1 (stepInstr (s, touch) (n, op)).2
      (n + 1) := by
  cases op with
  | set k v ttl now =>
      simp only [stepInstr]
      exact set_preserves k v ttl now hmax hC hT
  | clear ko =>
      simp only [stepInstr]
      cases ko with
      | none =>
          refine ⟨rfl, ⟨?_, ?_, ?_, ?_, ?_⟩, ⟨?_, ?_, ?_⟩⟩
          · show (([] : List (K × Entry V)).length) ≤ s.max_items
            simp
          · show (dictKeys ([] : List (K × Entry V))).Nodup
            simp [dictKeys]
          · show ([] : List K).Nodup
            simp
          · intro j
            show j ∈ dictKeys ([] : List (K × Entry V)) ↔ j ∈ ([] : List K)
            simp [dictKeys]
          · show ([] : List K).length = ([] : List (K × Entry V)).length
            simp
          · intro j hj
            exact absurd hj (List.not_mem_nil j)
          · intro j hj
            exact absurd hj (List.not_mem_nil j)
          · show ([] : List K).Pairwise _
            simp
      | some k =>
          by_cases hk : k ∈ dictKeys s.cache
          · have hkao : k ∈ s.access_order := (hC.mem_iff k).1 hk
            have hcl : EnhancedCache.clear s (some k)
                = EnhancedCache.remove_entry s k := by
              simp only [EnhancedCache.clear, EnhancedCache.remove_entry,
                if_pos hk, if_pos hkao]
            rw [hcl]
            exact remove_entry_preserves k hC hT hk
          · have hcl : EnhancedCache.clear s (some k) = s := by
              simp only [EnhancedCache.clear, if_neg hk]
            rw [hcl]
            exact ⟨rfl, hC, touchInv_of_fields hT rfl (by omega)⟩
  | get k d now =>
      rcases hl : lookupEntry s.cache k with _ | e
      · have hg := get_miss_absent d now hl
        simp only [stepInstr]
        rw [hg]
        refine ⟨rfl, cacheInv_of_fields hC rfl rfl rfl,
          touchInv_of_fields hT rfl (by omega)⟩
      · by_cases hexp : now - e.timestamp.getD 0
            > e.ttl.getD (pyOrQ d s.default_ttl)
        · have hg := get_expired d now hl hexp
          simp only [stepInstr]
          rw [hg]
          have hkmem : k ∈ dictKeys s.cache := by
            rw [mem_dictKeys_iff_lookup, hl]; rfl
          obtain ⟨hm', hC', hT'⟩ := remove_entry_preserves k hC hT hkmem
          exact ⟨hm', cacheInv_of_fields hC' rfl rfl rfl,
            touchInv_of_fields hT' rfl le_rfl⟩
        · have hg := get_hit d now hl hexp
          simp only [stepInstr]
          rw [hg]
          have hkmem : k ∈ dictKeys s.cache := by
            rw [mem_dictKeys_iff_lookup, hl]; rfl
          have hkao : k ∈ s.access_order := (hC.mem_iff k).1 hkmem
          have hlenao : s.access_order.length ≤ s.max_items := by
            rw [hC.len_eq]; exact hC.size_le
          have ha' := update_access_order_ao_of_mem hlenao hkao
          obtain ⟨hnd', hmem', hlen', hdef', hbnd', hsort'⟩ :=
            recency_refresh hC.ao_nodup hkao hT.defined hT.bounded hT.sorted
          refine ⟨rfl, ⟨?_, ?_, ?_, ?_, ?_⟩, ?_, ?_, ?_⟩
          · show s.cache.length ≤ s.max_items
            exact hC.size_le
          · show (dictKeys s.cache).Nodup
            exact hC.keys_nodup
          · show ((EnhancedCache.update_access_order s k).access_order).Nodup
            rw [ha']; exact hnd'
          · intro j
            show j ∈ dictKeys s.cache
              ↔ j ∈ (EnhancedCache.update_access_order s k).access_order
            rw [ha']
            exact (hC.mem_iff j).trans (hmem' j).symm
          · show (EnhancedCache.update_access_order s k).access_order.length
              = s.cache.length
            rw [ha', hlen']
            exact hC.len_eq
          · intro j hj
            rw [show ({ EnhancedCache.update_access_order s k with
                hits := (EnhancedCache.update_access_order s k).hits + 1 }
                  : EnhancedCache K V).access_order
              = (EnhancedCache.update_access_order s k).access_order from rfl,
              ha'] at hj
            exact hdef' j hj
          · intro j hj
            rw [show ({ EnhancedCache.update_access_order s k with
                hits := (EnhancedCache.update_access_order s k).hits + 1 }
                  : EnhancedCache K V).access_order
              = (EnhancedCache.update_access_order s k).access_order from rfl,
              ha'] at hj
            exact hbnd' j hj
          · show ((EnhancedCache.update_access_order s k).access_order).Pairwise _
            rw [ha']
            exact hsort'

/-- Invariants propagate along an instrumented fold from any sound state. -/
lemma foldl_stepInstr_inv {maxI : ℕ} (hmax : 1 ≤ maxI) :
    ∀ (ops : List (CacheOp K V)) (i0 : ℕ) (s : EnhancedCache K V)
      (touch : K → Option ℕ), s.max_items = maxI → CacheInv s →
      TouchInv s touch i0 →
      ((List.enumFrom i0 ops).foldl stepInstr (s, touch)).1.max_items = maxI ∧
      CacheInv ((List.enumFrom i0 ops).foldl stepInstr (s, touch)).1 ∧
      TouchInv ((List.enumFrom i0 ops).foldl stepInstr (s, touch)).1
        ((List.enumFrom i0 ops).foldl stepInstr (s, touch)).2
        (i0 + ops.length) := by
  intro ops
  induction ops with
  | nil =>
      intro i0 s touch hm hC hT
      simpa using ⟨hm, hC, hT⟩
  | cons op rest ih =>
      intro i0 s touch hm hC hT
      rw [List.enumFrom_cons, List.foldl_cons]
      obtain ⟨hm1, hC1, hT1⟩ :=
        stepInstr_preserves op (by omega) hC hT
      have h := ih (i0 + 1) (stepInstr (s, touch) (i0, op)).1
        (stepInstr (s, touch) (i0, op)).2 (by rw [hm1, hm]) hC1 hT1
      rw [List.length_cons,
        show i0 + (rest.length + 1) = i0 + 1 + rest.length from by omega]
      exact h

/-- The instrumented run computes exactly the cache state of `runOps`. -/
lemma foldl_stepInstr_fst :
    ∀ (ops : List (CacheOp K V)) (i0 : ℕ) (s : EnhancedCache K V)
      (touch : K → Option ℕ),
      ((List.enumFrom i0 ops).foldl stepInstr (s, touch)).1
        = ops.foldl applyOp s := by
  intro ops
  induction ops with
  | nil => intro i0 s touch; rfl
  | cons op rest ih =>
      intro i0 s touch
      rw [List.enumFrom_cons, List.foldl_cons, List.foldl_cons]
      have hstep1 : (stepInstr (s, touch) (i0, op)).1 = applyOp s op := by
        cases op <;> rfl
      have h := ih (i0 + 1) (stepInstr (s, touch) (i0, op)).1
        (stepInstr (s, touch) (i0, op)).2
      rw [← hstep1]
      exact h

lemma runInstr_eq_runOps (maxI : ℕ) (ops : List (CacheOp K V)) :
    (runInstr maxI ops).1 = runOps maxI ops := by
  rw [runInstr, runOps, List.enum_eq_enumFrom]
  exact foldl_stepInstr_fst ops 0 _ _

lemma cacheInv_init (maxI : ℕ) :
    CacheInv (EnhancedCache.init (K := K) V maxI) := by
  refine ⟨?_, ?_, ?_, ?_, ?_⟩ <;>
    simp [EnhancedCache.init, dictKeys]

lemma touchInv_init (maxI : ℕ) :
    TouchInv (EnhancedCache.init (K := K) V maxI)
      (fun _ => none) 0 := by
  refine ⟨?_, ?_, ?_⟩ <;>
    simp [EnhancedCache.init]

/-- The invariants hold of every trace-reachable state (capacity ≥ 1). -/
lemma runInstr_inv (maxI : ℕ) (hmax : 1 ≤ maxI)
    (ops : List (CacheOp K V)) :
    (runInstr maxI ops).1.max_items = maxI ∧
    CacheInv (runInstr maxI ops).1 ∧
    TouchInv (runInstr maxI ops).1 (runInstr maxI ops).2 ops.length := by
  have h := foldl_stepInstr_inv hmax ops 0 (EnhancedCache.init V maxI)
    (fun _ => none) rfl (cacheInv_init maxI) (touchInv_init maxI)
  rw [runInstr, List.enum_eq_enumFrom]
  simpa using h

end InvariantLemmas

/-- **C6 (amended: positive capacity).** For every cache with
`max_items ≥ 1` and every sequence of `get`, `set`, and `clear` operations
starting from a fresh cache, after each operation the number of resident
entries never exceeds `max_items`, the set of keys in the recency sequence
(`access_order`) equals the set of keys in the entry map (`cache`), and
the recency sequence has no duplicates.  (As every prefix of a trace is a
trace, quantifying over all traces covers the state after each
operation.) -/
theorem cache_invariants {K V : Type} [DecidableEq K] (maxI : ℕ)
    (hmax : 1 ≤ maxI) (ops : List (CacheOp K V)) :
    (runOps maxI ops).cache.length ≤ maxI ∧
    (∀ k, k ∈ dictKeys (runOps maxI ops).cache
      ↔ k ∈ (runOps maxI ops).access_order) ∧
    (runOps maxI ops).access_order.Nodup := by
  obtain ⟨hm, hC, _hT⟩ := runInstr_inv maxI hmax ops
  have h1 := hC.size_le
  rw [hm] at h1
  rw [← runInstr_eq_runOps]
  exact ⟨h1, hC.mem_iff, hC.ao_nodup⟩

/-- Witness for C6: a concrete trace on a capacity-2 cache. -/
theorem cache_invariants_witness :
    (runOps (K := ℕ) (V := ℕ) 2
      [.set 0 10 none 0, .set 1 11 none 1, .set 2 12 none 2]).cache.length
        ≤ 2 ∧
    (∀ k, k ∈ dictKeys (runOps (K := ℕ) (V := ℕ) 2
        [.set 0 10 none 0, .set 1 11 none 1, .set 2 12 none 2]).cache
      ↔ k ∈ (runOps (K := ℕ) (V := ℕ) 2
        [.set 0 10 none 0, .set 1 11 none 1, .set 2 12 none 2]).access_order) ∧
    (runOps (K := ℕ) (V := ℕ) 2
      [.set 0 10 none 0, .set 1 11 none 1, .set 2 12 none 2]).access_order.Nodup :=
  cache_invariants 2 (by norm_num)
    [.set 0 10 none 0, .set 1 11 none 1, .set 2 12 none 2]

/-- Counterexample to C6 as stated for every cache: with `max_items = 0`
(`deque(maxlen=0)` retains nothing), a single `set` leaves one resident
entry, exceeding `max_items` and breaking the lockstep of `cache` and
`access_order`. -/
theorem cache_invariants_cex :
    ¬ ((runOps (K := ℕ) (V := ℕ) 0 [.set 1 10 none 0]).cache.length ≤ 0 ∧
       (∀ k, k ∈ dictKeys (runOps (K := ℕ) (V := ℕ) 0
            [.set 1 10 none 0]).cache
          ↔ k ∈ (runOps (K := ℕ) (V := ℕ) 0
            [.set 1 10 none 0]).access_order) ∧
       (runOps (K := ℕ) (V := ℕ) 0
          [.set 1 10 none 0]).access_order.Nodup) :=
  fun h => absurd h.1 (by decide)

/-- **C5.** For every cache at capacity (resident entries = `max_items ≥ 1`,
here a trace-reachable state), `set(key, value)` with a key not currently
resident first evicts the least-recently-used resident key — the head of
the recency sequence, which is exactly the resident key whose last `get`
or `set` is oldest — before inserting; all other resident keys and the new
key remain.  In particular with `max_items = 2`, after `set(A)`, `set(B)`,
a successful `get(A)`, then `set(C)`, key `B` is evicted and keys `A` and
`C` remain resident (A = 0, B = 1, C = 2). -/
theorem lru_eviction {K V : Type} [DecidableEq K] (maxI : ℕ)
    (hmax : 1 ≤ maxI) (ops : List (CacheOp K V)) (k : K) (v : V)
    (ttl : Option ℚ) (now : ℚ)
    (hfull : (runOps maxI ops).cache.length = maxI)
    (hnew : k ∉ dictKeys (runOps maxI ops).cache) :
    (∃ lru rest, (runOps maxI ops).access_order = lru :: rest ∧
      (∀ j, j ∈ dictKeys (runOps maxI ops).cache → j ≠ lru →
        touchN (runInstr maxI ops).2 lru < touchN (runInstr maxI ops).2 j) ∧
      lru ∉ dictKeys (EnhancedCache.set (runOps maxI ops) k v ttl now).cache ∧
      k ∈ dictKeys (EnhancedCache.set (runOps maxI ops) k v ttl now).cache ∧
      (∀ j, j ∈ dictKeys (runOps maxI ops).cache → j ≠ lru →
        j ∈ dictKeys (EnhancedCache.set (runOps maxI ops) k v ttl now).cache)) ∧
    (1 ∉ dictKeys (runOps (K := ℕ) (V := ℕ) 2
        [.set 0 10 none 0, .set 1 11 none 1, .get 0 none 2,
         .set 2 12 none 3]).cache ∧
     0 ∈ dictKeys (runOps (K := ℕ) (V := ℕ) 2
        [.set 0 10 none 0, .set 1 11 none 1, .get 0 none 2,
         .set 2 12 none 3]).cache ∧
     2 ∈ dictKeys (runOps (K := ℕ) (V := ℕ) 2
        [.set 0 10 none 0, .set 1 11 none 1, .get 0 none 2,
         .set 2 12 none 3]).cache) := by
  constructor
  · obtain ⟨hm, hC, hT⟩ := runInstr_inv maxI hmax ops
    have hr := runInstr_eq_runOps maxI ops
    rw [← hr] at hfull hnew ⊢
    have hge : (runInstr maxI ops).1.cache.length
        ≥ (runInstr maxI ops).1.max_items := by rw [hm, hfull]
    rw [set_eq_evict v ttl now hge hnew]
    have haolen : (runInstr maxI ops).1.access_order.length = maxI := by
      rw [hC.len_eq, hfull]
    obtain ⟨lru, rest, hao⟩ : ∃ lru rest,
        (runInstr maxI ops).1.access_order = lru :: rest := by
      cases hx : (runInstr maxI ops).1.access_order with
      | nil => rw [hx] at haolen; simp at haolen; omega
      | cons a t => exact ⟨a, t, rfl⟩
    have hlruao : lru ∈ (runInstr maxI ops).1.access_order := by
      rw [hao]; exact List.mem_cons_self _ _
    have hlruk : lru ∈ dictKeys (runInstr maxI ops).1.cache :=
      (hC.mem_iff lru).2 hlruao
    have hev : EnhancedCache.evict_lru (runInstr maxI ops).1
        = EnhancedCache.remove_entry (runInstr maxI ops).1 lru := by
      simp only [EnhancedCache.evict_lru, hao]
    have hevc : (EnhancedCache.evict_lru (runInstr maxI ops).1).cache
        = dictErase (runInstr maxI ops).1.cache lru := by
      rw [hev]; simp only [EnhancedCache.remove_entry, if_pos hlruk]
    have hknot1 : k ∉ dictKeys
        (dictErase (runInstr maxI ops).1.cache lru) := fun h =>
      hnew (mem_dictKeys_dictErase.1 h).1
    have hkeys' : dictKeys (dictInsert
        (EnhancedCache.evict_lru (runInstr maxI ops).1).cache k
        (Entry.mk v (some now) (some (pyOrQ ttl
          (EnhancedCache.evict_lru (runInstr maxI ops).1).default_ttl))))
        = dictKeys (dictErase (runInstr maxI ops).1.cache lru) ++ [k] := by
      rw [hevc, dictKeys_dictInsert, if_neg hknot1]
    have hlru_ne : lru ≠ k := fun he => hnew (he ▸ hlruk)
    refine ⟨lru, rest, hao, ?_, ?_, ?_, ?_⟩
    · intro j hj hne
      have hjao : j ∈ (runInstr maxI ops).1.access_order :=
        (hC.mem_iff j).1 hj
      rw [hao] at hjao
      have hjrest : j ∈ rest := (List.mem_cons.1 hjao).resolve_left hne
      have hs := hT.sorted
      rw [hao] at hs
      exact (List.pairwise_cons.1 hs).1 j hjrest
    · show lru ∉ dictKeys (dictInsert _ k _)
      rw [hkeys', List.mem_append, List.mem_singleton]
      rintro (h | h)
      · exact not_mem_dictKeys_dictErase _ _ h
      · exact hlru_ne h
    · show k ∈ dictKeys (dictInsert _ k _)
      rw [hkeys', List.mem_append, List.mem_singleton]
      exact Or.inr rfl
    · intro j hj hne
      show j ∈ dictKeys (dictInsert _ k _)
      rw [hkeys', List.mem_append]
      exact Or.inl (mem_dictKeys_dictErase.2 ⟨hj, hne⟩)
  · refine ⟨?_, ?_, ?_⟩ <;>
      norm_num [runOps, applyOp, EnhancedCache.set, EnhancedCache.get,
        EnhancedCache.init, EnhancedCache.update_access_order,
        EnhancedCache.evict_lru, EnhancedCache.remove_entry,
        EnhancedCache.dequeAppend, dictInsert, dictErase, dictKeys,
        lookupEntry, pyOrQ]

/-- Witness for C5: a capacity-2 cache holding keys 0 and 1 with key 0
refreshed; inserting fresh key 2 evicts the head of the recency order. -/
theorem lru_eviction_witness :
    (∃ lru rest, (runOps (K := ℕ) (V := ℕ) 2
        [.set 0 10 none 0, .set 1 11 none 1,
         .get 0 none 2]).access_order = lru :: rest ∧
      (∀ j, j ∈ dictKeys (runOps (K := ℕ) (V := ℕ) 2
          [.set 0 10 none 0, .set 1 11 none 1, .get 0 none 2]).cache →
        j ≠ lru →
        touchN (runInstr (K := ℕ) (V := ℕ) 2
          [.set 0 10 none 0, .set 1 11 none 1, .get 0 none 2]).2 lru
          < touchN (runInstr (K := ℕ) (V := ℕ) 2
          [.set 0 10 none 0, .set 1 11 none 1, .get 0 none 2]).2 j) ∧
      lru ∉ dictKeys (EnhancedCache.set (runOps (K := ℕ) (V := ℕ) 2
          [.set 0 10 none 0, .set 1 11 none 1, .get 0 none 2])
          2 12 none 3).cache ∧
      2 ∈ dictKeys (EnhancedCache.set (runOps (K := ℕ) (V := ℕ) 2
          [.set 0 10 none 0, .set 1 11 none 1, .get 0 none 2])
          2 12 none 3).cache ∧
      (∀ j, j ∈ dictKeys (runOps (K := ℕ) (V := ℕ) 2
          [.set 0 10 none 0, .set 1 11 none 1, .get 0 none 2]).cache →
        j ≠ lru →
        j ∈ dictKeys (EnhancedCache.set (runOps (K := ℕ) (V := ℕ) 2
          [.set 0 10 none 0, .set 1 11 none 1, .get 0 none 2])
          2 12 none 3).cache)) ∧
    (1 ∉ dictKeys (runOps (K := ℕ) (V := ℕ) 2
        [.set 0 10 none 0, .set 1 11 none 1, .get 0 none 2,
         .set 2 12 none 3]).cache ∧
     0 ∈ dictKeys (runOps (K := ℕ) (V := ℕ) 2
        [.set 0 10 none 0, .set 1 11 none 1, .get 0 none 2,
         .set 2 12 none 3]).cache ∧
     2 ∈ dictKeys (runOps (K := ℕ) (V := ℕ) 2
        [.set 0 10 none 0, .set 1 11 none 1, .get 0 none 2,
         .set 2 12 none 3]).cache) :=
  lru_eviction 2 (by norm_num)
    [.set 0 10 none 0, .set 1 11 none 1, .get 0 none 2] 2 12 none 3
    (by norm_num [runOps, applyOp, EnhancedCache.set, EnhancedCache.get,
      EnhancedCache.init, EnhancedCache.update_access_order,
      EnhancedCache.evict_lru, EnhancedCache.remove_entry,
      EnhancedCache.dequeAppend, dictInsert, dictErase, dictKeys,
      lookupEntry, pyOrQ])
    (by norm_num [runOps, applyOp, EnhancedCache.set, EnhancedCache.get,
      EnhancedCache.init, EnhancedCache.update_access_order,
      EnhancedCache.evict_lru, EnhancedCache.remove_entry,
      EnhancedCache.dequeAppend, dictInsert, dictErase, dictKeys,
      lookupEntry, pyOrQ])
